import Mathlib

/-!
ABX exchange client: stream reconciliation.

A shallow embedding of `src/Client/client_exchange.cpp` and theorems about it.

* C++ `unsigned char` is `Byte = Fin 256`; `std::string` is a list of bytes
  (the symbol bytes of a packet are arbitrary, so text is kept as raw bytes).
* `std::map` and `std::set` are association lists kept in ascending key order,
  which is the order in which the C++ containers are iterated.
* `uint32_t` values are natural numbers reduced modulo `2 ^ 32`; `int` values are
  integers, and the two places where an `int` can leave its range (`std::stoi`,
  the loop counter of `identifyMissingSequences`) are modelled explicitly.
* Code that can throw returns `Except Fault`; nothing in the program catches an
  exception, so in the client an error value (`Crash`) stands for the abnormal
  end of the process, and it keeps the socket as it was at that moment.
* The socket is an explicit part of the state: the results of the receive calls
  still to come, and the request frames sent so far. A receive call may deliver
  fewer than 17 bytes; the rest of the buffer then keeps its old content.
* The time a receive call waits is not modelled: a time-out is a receive call
  with a non-positive result. The lines written to `std::cout` are left out.
-/

namespace AbxClient

/-! ## Bytes and strings -/

/-- One `unsigned char`. -/
abbrev Byte := Fin 256

/-- A `std::string`: a sequence of raw bytes. -/
abbrev CppString := List Byte

/-- The bytes of an ASCII string literal of the source. -/
def cstr (s : String) : CppString := s.data.map (fun c => Fin.ofNat c.toNat)

/-- What an uncaught C++ failure can be in this program: the two exceptions of
`std::stoi` and `std::map::at`, and signed overflow of an `int`. -/
inductive Fault where
  | invalid_argument
  | out_of_range
  | signed_overflow
  deriving DecidableEq, Repr

deriving instance DecidableEq for Except

/-- Largest value of a C++ `int`. -/
def INT_MAX : Int := 2147483647

/-- Smallest value of a C++ `int`. -/
def INT_MIN : Int := -2147483648

/-- The ASCII digit for `d` (`d < 10`). -/
def digitByte (d : Nat) : Byte := Fin.ofNat (48 + d)

/-- Decimal digits of `n`, most significant first, pushed in front of `acc`.
The first argument bounds the number of digits produced. -/
def decimalDigits : Nat → Nat → CppString → CppString
  | 0, _, acc => acc
  | fuel + 1, n, acc =>
    if n / 10 = 0 then digitByte (n % 10) :: acc
    else decimalDigits fuel (n / 10) (digitByte (n % 10) :: acc)

/-- The function `std::to_string` on an unsigned value: its decimal text, without
sign or leading zeros (`"0"` for zero). -/
def to_string (n : Nat) : CppString := decimalDigits (n + 1) n []

/-- The C function `isspace` in the "C" locale. -/
def isspace (c : Byte) : Bool := c.val = 32 || (9 ≤ c.val && c.val ≤ 13)

/-- The C function `isdigit`. -/
def isdigit (c : Byte) : Bool := 48 ≤ c.val && c.val ≤ 57

/-- Value of a run of decimal digits read left to right, starting from `acc`. -/
def digitsValue (ds : CppString) (acc : Nat) : Nat :=
  ds.foldl (fun a c => 10 * a + (c.val - 48)) acc

/-- The range check at the end of `std::stoi`: the value has to be an `int`. -/
def stoiRange (v : Int) : Except Fault Int :=
  if v < INT_MIN ∨ INT_MAX < v then .error .out_of_range else .ok v

/-- The function `std::stoi` in base 10: skip leading white space, read an optional
sign and the longest run of digits; `invalid_argument` when there is no digit,
`out_of_range` when the value is not an `int`. -/
def stoi (s : CppString) : Except Fault Int :=
  let s1 := s.dropWhile isspace
  let s2 := if s1.head? = some 45 ∨ s1.head? = some 43 then s1.tail else s1
  let ds := s2.takeWhile isdigit
  if ds = [] then .error .invalid_argument
  else if s1.head? = some 45 then stoiRange (-((digitsValue ds 0 : Nat) : Int))
  else stoiRange ((digitsValue ds 0 : Nat) : Int)

/-! ## Ordered containers -/

/-- A `std::map<κ, ν>`: key/value pairs in ascending key order. -/
abbrev StdMap (κ ν : Type) := List (κ × ν)

/-- A `std::set<κ>`: elements in ascending order. -/
abbrev StdSet (κ : Type) := List κ

namespace StdMap

variable {κ ν : Type} [LinearOrder κ]

/-- The lookup `m.find(k)`: the mapped value, or `none` for `m.end()`. -/
def find : StdMap κ ν → κ → Option ν
  | [], _ => none
  | (k', v) :: rest, k => if k = k' then some v else find rest k

/-- The assignment `m[k] = v`: replaces the value of an existing key, otherwise
adds the pair at its place in the key order. -/
def assign : StdMap κ ν → κ → ν → StdMap κ ν
  | [], k, v => [(k, v)]
  | (k', v') :: rest, k, v =>
    if k < k' then (k, v) :: (k', v') :: rest
    else if k = k' then (k, v) :: rest
    else (k', v') :: assign rest k v

/-- Reading `m[k]`: the mapped value; an absent key is first added with the
default value. Returns the value and the map afterwards. -/
def subscript [Inhabited ν] (m : StdMap κ ν) (k : κ) : ν × StdMap κ ν :=
  match find m k with
  | some v => (v, m)
  | none => (default, assign m k default)

/-- The checked lookup `m.at(k)`: throws `std::out_of_range` for an absent key. -/
def at_ (m : StdMap κ ν) (k : κ) : Except Fault ν :=
  match find m k with
  | some v => .ok v
  | none => .error .out_of_range

/-- The keys of the map, in iteration order. -/
def keys (m : StdMap κ ν) : List κ := m.map Prod.fst

end StdMap

namespace StdSet

variable {κ : Type} [LinearOrder κ]

/-- The insertion `s.insert(k)`: no effect when `k` is already an element. -/
def insert : StdSet κ → κ → StdSet κ
  | [], k => [k]
  | k' :: rest, k =>
    if k < k' then k :: k' :: rest
    else if k = k' then k' :: rest
    else k' :: insert rest k

end StdSet

/-! ## JSONSerializer -/

/-- A decoded packet: `std::map<std::string, std::string>`. -/
abbrev Packet := StdMap CppString CppString

/-- The inner loop of `JSONSerializer::serialize`: one line per field, a comma
after every field but the last. -/
def serializeFields : List (CppString × CppString) → CppString
  | [] => []
  | (k, v) :: rest =>
    cstr "    \"" ++ k ++ cstr "\": \"" ++ v ++ cstr "\""
      ++ (if rest = [] then [] else cstr ",") ++ cstr "\n" ++ serializeFields rest

/-- The outer loop of `JSONSerializer::serialize` from index `i` on; `size` is
`records.size()` and the comparison `i < records.size() - 1` is done in `size_t`
arithmetic (modulo `2 ^ 64`). -/
def serializeRecords (size : Nat) : Nat → List Packet → CppString
  | _, [] => []
  | i, r :: rest =>
    cstr "  \x7b\n" ++ serializeFields r ++ cstr "  \x7d"
      ++ (if i < (size + 2 ^ 64 - 1) % 2 ^ 64 then cstr "," else []) ++ cstr "\n"
      ++ serializeRecords size (i + 1) rest

/-- The function `JSONSerializer::serialize`. -/
def serialize (records : List Packet) : CppString :=
  cstr "[\n" ++ serializeRecords records.length 0 records ++ cstr "]"

/-! ## PacketProcessor -/

/-- The receive buffer `unsigned char buffer[17]`. -/
abbrev Buffer := Fin 17 → Byte

/-- The function `PacketProcessor::convertBytesToUint32` on the four bytes at
`data + off`: shifts and ors in `uint32_t`. -/
def convertBytesToUint32 (b0 b1 b2 b3 : Byte) : Nat :=
  ((b0.val <<< 24) % 2 ^ 32) ||| ((b1.val <<< 16) % 2 ^ 32)
    ||| ((b2.val <<< 8) % 2 ^ 32) ||| b3.val

/-- The function `PacketProcessor::decodePacket`. -/
def decodePacket (data : Buffer) : Packet :=
  let packet : Packet := []
  let packet := packet.assign (cstr "symbol") [data 0, data 1, data 2, data 3]
  let packet := packet.assign (cstr "buysellindicator") [data 4]
  let packet := packet.assign (cstr "quantity")
    (to_string (convertBytesToUint32 (data 5) (data 6) (data 7) (data 8)))
  let packet := packet.assign (cstr "price")
    (to_string (convertBytesToUint32 (data 9) (data 10) (data 11) (data 12)))
  let packet := packet.assign (cstr "packetSequence")
    (to_string (convertBytesToUint32 (data 13) (data 14) (data 15) (data 16)))
  packet

/-! ## SocketManager -/

/-- The connected socket, as far as the client can observe it: `incoming` holds the
results of the receive calls still to come, each the bytes that one call delivers
(an empty list is a call that returns a non-positive value: time-out, error or
close; once the list is used up every call times out); `sent` holds the frames
passed to `send`, oldest first. -/
structure SocketManager where
  incoming : List (List Byte)
  sent : List (List Byte)
  deriving DecidableEq

/-- The conversion of an `int` argument to a `uint8_t` parameter. -/
def toUint8 (n : Int) : Byte := Fin.ofNat (n % 256).toNat

/-- The function `SocketManager::sendRequest`: sends the two bytes
`requestType, sequenceNumber`. -/
def SocketManager.sendRequest (s : SocketManager) (requestType sequenceNumber : Byte) :
    SocketManager :=
  { s with sent := s.sent ++ [[requestType, sequenceNumber]] }

/-- The buffer after a receive call delivered `chunk`: the bytes received replace
the front of the buffer (at most 17 are taken), the rest keeps its old content. -/
def fillBuffer (buffer : Buffer) (chunk : List Byte) : Buffer :=
  fun i => (chunk[i.val]?).getD (buffer i)

/-- Return value of a receive call of 17 bytes that delivers `chunk`. -/
def bytesReadOf (chunk : List Byte) : Int := ((min chunk.length 17 : Nat) : Int)

/-- The function `SocketManager::receiveData` with `bufferSize = 17`: the return
value of `recv`, the buffer and the socket afterwards. -/
def SocketManager.receiveData (s : SocketManager) (buffer : Buffer) :
    Int × Buffer × SocketManager :=
  match s.incoming with
  | [] => (-1, buffer, s)
  | chunk :: rest => (bytesReadOf chunk, fillBuffer buffer chunk, { s with incoming := rest })

/-! ## ExchangeClient -/

/-- The state of `ExchangeClient`, with the files it has written. -/
structure ExchangeClient where
  socketManager : SocketManager
  packets : StdMap Int Packet
  missingSequences : StdSet Int
  files : List (CppString × CppString)
  deriving DecidableEq

/-- An abnormal end of the process: the failure that nothing caught, and the socket
at that moment (what had been received and sent so far). -/
structure Crash where
  fault : Fault
  socket : SocketManager
  deriving DecidableEq

/-- The numeric value of the `packetSequence` field of a stored record, as the
source reads it: `std::stoi(p.at("packetSequence"))`. -/
def sequenceOf (p : Packet) : Except Fault Int :=
  match p.at_ (cstr "packetSequence") with
  | .error e => .error e
  | .ok text => stoi text

/-- What both receive loops do with a frame in the buffer: decode it, read its
sequence with `std::stoi(packet["packetSequence"])` and store it with
`packets[sequence] = packet`. -/
def storePacket (buffer : Buffer) (packets : StdMap Int Packet) :
    Except Fault (StdMap Int Packet) :=
  let (text, packet) := (decodePacket buffer).subscript (cstr "packetSequence")
  match stoi text with
  | .error e => .error e
  | .ok sequence => .ok (packets.assign sequence packet)

/-- The `while (true)` loop of `retrieveData`, by recursion on the results of the
receive calls still to come; `sent` is what the socket has sent. Returns the
receive results left over and the record set. -/
def drainLoop (sent : List (List Byte)) : List (List Byte) → Buffer → StdMap Int Packet →
    Except Crash (List (List Byte) × StdMap Int Packet)
  | [], _, packets => .ok ([], packets) -- the receive call times out: `break`
  | chunk :: rest, buffer, packets =>
    if bytesReadOf chunk ≤ 0 then .ok (rest, packets) -- `bytesRead <= 0`: `break`
    else
      match storePacket (fillBuffer buffer chunk) packets with
      | .error e => .error { fault := e, socket := { incoming := rest, sent := sent } }
      | .ok packets => drainLoop sent rest (fillBuffer buffer chunk) packets

/-- The first loop of `identifyMissingSequences`: the largest `packetSequence`
value among the stored records, starting from `maxSequence`. -/
def maxSequenceLoop : List (Int × Packet) → Int → Except Fault Int
  | [], maxSequence => .ok maxSequence
  | entry :: rest, maxSequence =>
    match sequenceOf entry.2 with
    | .error e => .error e
    | .ok v => maxSequenceLoop rest (max maxSequence v)

/-- The second loop of `identifyMissingSequences`,
`for (int i = ..; i <= maxSequence; ++i)`. The first argument is the number of
values of `i` still to visit, `maxSequence + 1 - i`: the loop condition holds
exactly when it is not zero. The increment of `i = INT_MAX` overflows. -/
def gapLoop (packets : StdMap Int Packet) : Nat → Int → StdSet Int → Except Fault (StdSet Int)
  | 0, _, missing => .ok missing
  | n + 1, i, missing =>
    if i = INT_MAX then .error .signed_overflow
    else gapLoop packets n (i + 1) (if packets.find i = none then missing.insert i else missing)

/-- The function `ExchangeClient::identifyMissingSequences`. -/
def ExchangeClient.identifyMissingSequences (c : ExchangeClient) : Except Crash ExchangeClient :=
  match maxSequenceLoop c.packets 0 with
  | .error e => .error { fault := e, socket := c.socketManager }
  | .ok maxSequence =>
    -- the counter starts at 1, so `maxSequence + 1 - 1` values are to be visited
    match gapLoop c.packets (maxSequence + 1 - 1).toNat 1 c.missingSequences with
    | .error e => .error { fault := e, socket := c.socketManager }
    | .ok missing => .ok { c with missingSequences := missing }

/-- The loop of `requestMissingPackets` over the elements of `missingSequences`
still to visit. -/
def requestLoop : List Int → SocketManager → Buffer → StdMap Int Packet →
    Except Crash (SocketManager × StdMap Int Packet)
  | [], sm, _, packets => .ok (sm, packets)
  | seq :: rest, sm, buffer, packets =>
    let r := (sm.sendRequest 2 (toUint8 seq)).receiveData buffer
    if r.1 > 0 then
      match storePacket r.2.1 packets with
      | .error e => .error { fault := e, socket := r.2.2 }
      | .ok packets => requestLoop rest r.2.2 r.2.1 packets
    else requestLoop rest r.2.2 r.2.1 packets

/-- The function `ExchangeClient::requestMissingPackets`; `buffer` is the initial
(indeterminate) content of its local buffer. -/
def ExchangeClient.requestMissingPackets (c : ExchangeClient) (buffer : Buffer) :
    Except Crash ExchangeClient :=
  match requestLoop c.missingSequences c.socketManager buffer c.packets with
  | .error e => .error e
  | .ok (sm, packets) => .ok { c with socketManager := sm, packets := packets }

/-- The vector `data` that `saveDataAsJSON` builds and hands to the serializer:
the mapped records in the iteration order of `packets`. -/
def ExchangeClient.outputData (c : ExchangeClient) : List Packet := c.packets.map Prod.snd

/-- The function `ExchangeClient::saveDataAsJSON`. -/
def ExchangeClient.saveDataAsJSON (c : ExchangeClient) (filename : CppString) : ExchangeClient :=
  { c with files := c.files ++ [(filename, serialize c.outputData)] }

/-- The draining part of `retrieveData`: the stream-all request and the receive
loop; `buffer` is the initial (indeterminate) content of the local buffer. -/
def ExchangeClient.drain (c : ExchangeClient) (buffer : Buffer) : Except Crash ExchangeClient :=
  let sm := c.socketManager.sendRequest 1 0
  match drainLoop sm.sent sm.incoming buffer c.packets with
  | .error e => .error e
  | .ok (incoming, packets) =>
    .ok { c with socketManager := { sm with incoming := incoming }, packets := packets }

/-- The function `ExchangeClient::retrieveData`; `buffer` and `buffer2` are the
initial contents of the local buffers of `retrieveData` and
`requestMissingPackets`. -/
def ExchangeClient.retrieveData (c : ExchangeClient) (buffer buffer2 : Buffer) :
    Except Crash ExchangeClient :=
  match c.drain buffer with
  | .error e => .error e
  | .ok c =>
    match c.identifyMissingSequences with
    | .error e => .error e
    | .ok c =>
      match c.requestMissingPackets buffer2 with
      | .error e => .error e
      | .ok c => .ok (c.saveDataAsJSON (cstr "output.json"))

/-- The client as constructed by `main`, connected to a socket whose receive calls
will deliver `incoming`. -/
def ExchangeClient.init (incoming : List (List Byte)) : ExchangeClient :=
  { socketManager := { incoming := incoming, sent := [] }
    packets := []
    missingSequences := []
    files := [] }

/-! ## Notions used in the statements -/

/-- The socket at the end of a run, normal or not. -/
def socketOf : Except Crash ExchangeClient → SocketManager
  | .ok c => c.socketManager
  | .error e => e.socket

/-- The socket at the end of the loop of `requestMissingPackets`, normal or not. -/
def loopSocket : Except Crash (SocketManager × StdMap Int Packet) → SocketManager
  | .ok r => r.1
  | .error e => e.socket

/-- A buffer holding the given bytes (zero where the list is too short). -/
def bufferOfList (l : List Byte) : Buffer := fun i => l.getD i.val 0

/-- Modelled from the spec: a Record of the data model (section 3), which the
repository only handles in decoded form: a 4-byte symbol, a 1-byte side and three
numbers. -/
structure Record where
  symbol : Fin 4 → Byte
  side : Byte
  quantity : Nat
  price : Nat
  sequence : Nat

/-- Modelled from the spec: the 17-byte wire layout of section 4.1 (the sender is
not part of the repository): symbol, side, then quantity, price and sequence as
big-endian 32-bit integers. -/
def encodePacket (r : Record) : List Byte :=
  [r.symbol 0, r.symbol 1, r.symbol 2, r.symbol 3, r.side,
   Fin.ofNat (r.quantity / 2 ^ 24), Fin.ofNat (r.quantity / 2 ^ 16),
   Fin.ofNat (r.quantity / 2 ^ 8), Fin.ofNat r.quantity,
   Fin.ofNat (r.price / 2 ^ 24), Fin.ofNat (r.price / 2 ^ 16),
   Fin.ofNat (r.price / 2 ^ 8), Fin.ofNat r.price,
   Fin.ofNat (r.sequence / 2 ^ 24), Fin.ofNat (r.sequence / 2 ^ 16),
   Fin.ofNat (r.sequence / 2 ^ 8), Fin.ofNat r.sequence]

/-- The sequence number that `decodePacket` reads from a buffer. -/
def sequenceField (data : Buffer) : Nat :=
  convertBytesToUint32 (data 13) (data 14) (data 15) (data 16)

/-- The invariant of the record set: the keys are strictly ascending, and every
record is stored under the number that its own `packetSequence` field reads as. -/
def Consistent (packets : StdMap Int Packet) : Prop :=
  packets.keys.Pairwise (· < ·) ∧ ∀ e ∈ packets, sequenceOf e.2 = .ok e.1

/-- The resend request frame that `requestMissingPackets` sends for the gap
sequence `seq`: the call `sendRequest(2, seq)`. -/
def resendFrame (seq : Int) : List Byte := [2, toUint8 seq]

/-- The client state of a run that ended normally (the initial client otherwise). -/
def finalOf : Except Crash ExchangeClient → ExchangeClient
  | .ok c => c
  | .error _ => ExchangeClient.init []

/-- A server that answers each resend request with one whole frame carrying the
sequence named by the parameter byte of the request: `replies` are the results of
the receive calls that follow the requests for `gaps`, in order. -/
def answersResends : List Int → List (List Byte) → Bool
  | [], _ => true
  | _ :: _, [] => false
  | g :: gaps, reply :: replies =>
    decide (reply.length = 17) && decide (sequenceField (bufferOfList reply) = (toUint8 g).val)
      && answersResends gaps replies

/-- The sequence numbers of the frames decoded when the given receive results are
read one after the other into `buffer`: a result with a positive return value is
decoded from the buffer as it then stands, any other result is skipped. -/
def decodedSequences : List (List Byte) → Buffer → List Int
  | [], _ => []
  | chunk :: rest, buffer =>
    if bytesReadOf chunk > 0 then
      (sequenceField (fillBuffer buffer chunk) : Int)
        :: decodedSequences rest (fillBuffer buffer chunk)
    else decodedSequences rest (fillBuffer buffer chunk)

/-- Where a scan of a JSON text for its string literals stands: outside a string
literal, inside one, right after a backslash inside one, or on a byte that no JSON
text can have there. -/
inductive LexState where
  | outside
  | inside
  | escaped
  | failed
  deriving DecidableEq, Repr

/-- One byte of the scan, by the rules of JSON for string literals (RFC 8259,
section 7): a double quote (34) opens and closes a literal; inside a literal a
backslash (92) starts an escape, whose next byte is one of
`" \ / b f n r t u`, and no control character (below 32) may stand. -/
def lexStep : LexState → Byte → LexState
  | .outside, c => if c = 34 then .inside else .outside
  | .inside, c =>
    if c = 34 then .outside
    else if c = 92 then .escaped
    else if c.val < 32 then .failed
    else .inside
  | .escaped, c =>
    if c = 34 ∨ c = 92 ∨ c = 47 ∨ c = 98 ∨ c = 102 ∨ c = 110 ∨ c = 114 ∨ c = 116 ∨ c = 117
    then .inside else .failed
  | .failed, _ => .failed

/-- The string literals of a text are delimited as JSON requires: the scan never
fails and ends outside a literal. Every well-formed JSON text has this property
(the scan checks nothing else of the grammar). -/
def stringsDelimited (text : CppString) : Bool :=
  decide (text.foldl lexStep .outside = .outside)

/-- The record sets reachable from the empty one by the steps of draining and
backfilling: each step stores the frame that a receive call left in the buffer. -/
inductive Reachable : StdMap Int Packet → Prop where
  | empty : Reachable []
  | store (buffer : Buffer) (packets packets' : StdMap Int Packet) :
      Reachable packets → storePacket buffer packets = .ok packets' → Reachable packets'

/-- A receive result that is either empty (time-out, error, close) or a whole frame
whose sequence number is below `INT_MAX`. -/
def SmallFrame (chunk : List Byte) : Prop :=
  chunk = [] ∨ (17 ≤ chunk.length ∧ sequenceField (bufferOfList chunk) < 2147483647)

/-- What each of the given receive results, read one after the other into `buffer`,
makes the client decode: the sequence number of the frame then in the buffer for a
result with a positive return value, `none` for any other result. -/
def decodedReplies : List (List Byte) → Buffer → List (Option Int)
  | [], _ => []
  | chunk :: rest, buffer =>
    (if bytesReadOf chunk > 0 then some (sequenceField (fillBuffer buffer chunk) : Int) else none)
      :: decodedReplies rest (fillBuffer buffer chunk)

/-- The sequence numbers of the replies that `requestMissingPackets` decodes: it
makes one receive call per element of the gap set. -/
def ExchangeClient.replySequences (c : ExchangeClient) (buffer : Buffer) : List Int :=
  decodedSequences (c.socketManager.incoming.take c.missingSequences.length) buffer

/-! ## Concrete inputs -/

/-- A response frame of 17 bytes with the given sequence number (symbol `MSFT`,
side `B`, quantity 50, price 100). -/
def frameWithSequence (n : Nat) : List Byte :=
  encodePacket { symbol := fun i => [77, 83, 70, 84].getD i.val 0, side := 66,
                 quantity := 50, price := 100, sequence := n }

/-- The answers of a server to the resend requests for `gaps`: to the request
`[2, p]` it answers with the whole frame whose sequence is `p`. -/
def honestReplies (gaps : List Int) : List (List Byte) :=
  gaps.map (fun g => frameWithSequence (toUint8 g).val)

/-- A buffer of zero bytes. -/
def zeroBuffer : Buffer := fun _ => 0

/-- The client after draining a stream that consists of the single frame with
sequence `2147483647` (the largest `int`). -/
def overflowState : ExchangeClient :=
  { socketManager := { incoming := [], sent := [[1, 0]] }
    packets := [(2147483647, decodePacket (bufferOfList (frameWithSequence 2147483647)))]
    missingSequences := []
    files := [] }

/-- The client after draining the single frame with sequence 3 and computing the
gap set, when the receive call that follows the first resend request will deliver
a frame with sequence `2147483648`. -/
def largeReplyState : ExchangeClient :=
  { socketManager := { incoming := [frameWithSequence 2147483648], sent := [[1, 0]] }
    packets := [(3, decodePacket (bufferOfList (frameWithSequence 3)))]
    missingSequences := [1, 2]
    files := [] }

/-- The sequences 1, 2, .., 255 and 257: the gaps of the record set with keys 256
and 258. -/
def gapsAbove255 : List Int := (List.range' 1 255).map Int.ofNat ++ [257]

/-- The frames with sequences 256 and 258, then silence, then the answers of the
server to the resend requests for the gaps 1..255 and 257. -/
def above255Incoming : List (List Byte) :=
  frameWithSequence 256 :: frameWithSequence 258 :: [] :: honestReplies gapsAbove255

/-- The client after draining `above255Incoming`. -/
def above255Drained : ExchangeClient :=
  { socketManager := { incoming := honestReplies gapsAbove255, sent := [[1, 0]] }
    packets := [(256, decodePacket (bufferOfList (frameWithSequence 256))),
                (258, decodePacket (bufferOfList (frameWithSequence 258)))]
    missingSequences := []
    files := [] }

/-- The client after computing the gap set of `above255Drained`. -/
def above255Identified : ExchangeClient :=
  { above255Drained with missingSequences := gapsAbove255 }

/-- The client after backfilling from `above255Identified`. -/
def above255Backfilled : ExchangeClient :=
  finalOf (above255Identified.requestMissingPackets zeroBuffer)

/-- Frames 5, 1, 2, 4 arrive in that order, the stream falls silent, and the resend
request for 3 is answered. -/
def sampleIncoming : List (List Byte) :=
  [frameWithSequence 5, frameWithSequence 1, frameWithSequence 2, frameWithSequence 4, [],
   frameWithSequence 3]

/-- The client after draining `sampleIncoming`. -/
def sampleDrained : ExchangeClient :=
  finalOf ((ExchangeClient.init sampleIncoming).drain zeroBuffer)

/-- The client after computing the gap set of `sampleDrained`. -/
def sampleIdentified : ExchangeClient :=
  finalOf sampleDrained.identifyMissingSequences

/-- Frames 5, 1, 2, 4 arrive in that order, the stream falls silent, and nothing
arrives any more: the resend request for 3 times out. -/
def sampleIncomingTimeout : List (List Byte) :=
  [frameWithSequence 5, frameWithSequence 1, frameWithSequence 2, frameWithSequence 4, []]

/-- The client after draining `sampleIncomingTimeout`. -/
def sampleDrainedTimeout : ExchangeClient :=
  finalOf ((ExchangeClient.init sampleIncomingTimeout).drain zeroBuffer)

/-- The client after computing the gap set of `sampleDrainedTimeout`. -/
def sampleIdentifiedTimeout : ExchangeClient :=
  finalOf sampleDrainedTimeout.identifyMissingSequences

/-- The record stored for the frame `frameWithSequence k`. -/
def entryOf (k : Nat) : Int × Packet :=
  ((k : Int), decodePacket (bufferOfList (frameWithSequence k)))

/-- The stream that carries every sequence from 1 to `n` once, in order. -/
def fullStreamIncoming (n : Nat) : List (List Byte) :=
  (List.range' 1 n).map frameWithSequence

/-- The client after draining `fullStreamIncoming n`. -/
def fullStreamDrained (n : Nat) : ExchangeClient :=
  { socketManager := { incoming := [], sent := [[1, 0]] }
    packets := (List.range' 1 n).map entryOf
    missingSequences := []
    files := [] }

/-- A record with the largest sequence number of the wire format. -/
def sampleRecord : Record :=
  { symbol := fun i => [77, 83, 70, 84].getD i.val 0
    side := 66
    quantity := 50
    price := 100
    sequence := 4294967295 }

/-- A record set holding sequences 1 and 3. -/
def samplePackets : StdMap Int Packet :=
  [(1, decodePacket (bufferOfList (frameWithSequence 1))),
   (3, decodePacket (bufferOfList (frameWithSequence 3)))]

/-- A second frame with sequence 3, with another symbol, side, quantity and price. -/
def sampleDuplicate : Buffer :=
  bufferOfList (encodePacket { symbol := fun i => [65, 65, 80, 76].getD i.val 0, side := 83,
                               quantity := 7, price := 9, sequence := 3 })

/-- Frame 3 arrives and the stream falls silent; the receive call after the resend
request for 1 returns nothing, and the one after the request for 2 delivers a frame
with sequence 1. -/
def lateReplyIncoming : List (List Byte) :=
  [frameWithSequence 3, [], [], frameWithSequence 1]

/-- The client after draining `lateReplyIncoming`. -/
def lateReplyDrained : ExchangeClient :=
  finalOf ((ExchangeClient.init lateReplyIncoming).drain zeroBuffer)

/-- The client after computing the gap set of `lateReplyDrained`. -/
def lateReplyIdentified : ExchangeClient :=
  finalOf lateReplyDrained.identifyMissingSequences

/-- The client after backfilling from `lateReplyIdentified`. -/
def lateReplyBackfilled : ExchangeClient :=
  finalOf (lateReplyIdentified.requestMissingPackets zeroBuffer)

/-- The client after backfilling from `sampleIdentified`. -/
def sampleBackfilled : ExchangeClient :=
  finalOf (sampleIdentified.requestMissingPackets zeroBuffer)

/-- The client after backfilling from `sampleIdentifiedTimeout`. -/
def sampleBackfilledTimeout : ExchangeClient :=
  finalOf (sampleIdentifiedTimeout.requestMissingPackets zeroBuffer)

/-- Frame 3 arrives and the stream falls silent; the receive call after the resend
request for 1 returns nothing, and the one after the request for 2 delivers the
frame with sequence 2. -/
def oneTimeoutIncoming : List (List Byte) :=
  [frameWithSequence 3, [], [], frameWithSequence 2]

/-- The client after draining `oneTimeoutIncoming`. -/
def oneTimeoutDrained : ExchangeClient :=
  finalOf ((ExchangeClient.init oneTimeoutIncoming).drain zeroBuffer)

/-- The client after computing the gap set of `oneTimeoutDrained`. -/
def oneTimeoutIdentified : ExchangeClient :=
  finalOf oneTimeoutDrained.identifyMissingSequences

/-- The client after backfilling from `oneTimeoutIdentified`. -/
def oneTimeoutBackfilled : ExchangeClient :=
  finalOf (oneTimeoutIdentified.requestMissingPackets zeroBuffer)

/-- A frame whose symbol is the four bytes `A`, double quote, `B`, `C`. -/
def quoteFrame : List Byte :=
  encodePacket { symbol := fun i => [65, 34, 66, 67].getD i.val 0, side := 66,
                 quantity := 50, price := 100, sequence := 1 }

/-- A frame whose symbol is four zero bytes. -/
def nulFrame : List Byte :=
  encodePacket { symbol := fun _ => 0, side := 66, quantity := 50, price := 100, sequence := 1 }

/-- The client at the end of the run that receives `quoteFrame` and then nothing. -/
def quoteFinal : ExchangeClient :=
  finalOf ((ExchangeClient.init [quoteFrame]).retrieveData zeroBuffer zeroBuffer)

/-! ## Byte conversion -/

theorem convertBytesToUint32_eq (b0 b1 b2 b3 : Byte) :
    convertBytesToUint32 b0 b1 b2 b3
      = b0.val * 2 ^ 24 + b1.val * 2 ^ 16 + b2.val * 2 ^ 8 + b3.val := by
  have h0 := b0.isLt
  have h1 := b1.isLt
  have h2 := b2.isLt
  have h3 := b3.isLt
  unfold convertBytesToUint32
  simp only [Nat.shiftLeft_eq]
  rw [Nat.mod_eq_of_lt (by omega), Nat.mod_eq_of_lt (by omega), Nat.mod_eq_of_lt (by omega)]
  have e3 : b2.val * 2 ^ 8 ||| b3.val = b2.val * 2 ^ 8 + b3.val := by
    have := Nat.mul_add_lt_is_or (i := 8) (b := b3.val) (by omega) b2.val
    rw [Nat.mul_comm] at this
    exact this.symm
  have e2 : b1.val * 2 ^ 16 ||| (b2.val * 2 ^ 8 + b3.val)
      = b1.val * 2 ^ 16 + (b2.val * 2 ^ 8 + b3.val) := by
    have := Nat.mul_add_lt_is_or (i := 16) (b := b2.val * 2 ^ 8 + b3.val) (by omega) b1.val
    rw [Nat.mul_comm] at this
    exact this.symm
  have e1 : b0.val * 2 ^ 24 ||| (b1.val * 2 ^ 16 + (b2.val * 2 ^ 8 + b3.val))
      = b0.val * 2 ^ 24 + (b1.val * 2 ^ 16 + (b2.val * 2 ^ 8 + b3.val)) := by
    have := Nat.mul_add_lt_is_or (i := 24) (b := b1.val * 2 ^ 16 + (b2.val * 2 ^ 8 + b3.val))
      (by omega) b0.val
    rw [Nat.mul_comm] at this
    exact this.symm
  rw [Nat.lor_assoc, Nat.lor_assoc, e3, e2, e1]
  omega

theorem convertBytesToUint32_lt (b0 b1 b2 b3 : Byte) :
    convertBytesToUint32 b0 b1 b2 b3 < 2 ^ 32 := by
  rw [convertBytesToUint32_eq]
  have h0 := b0.isLt
  have h1 := b1.isLt
  have h2 := b2.isLt
  have h3 := b3.isLt
  omega

/-! ## Decimal text: `to_string` and `stoi` -/

theorem digitByte_val (d : Nat) (h : d < 10) : (digitByte d).val = 48 + d := by
  unfold digitByte
  simp [Fin.ofNat]
  omega

theorem isdigit_digitByte (d : Nat) (h : d < 10) : isdigit (digitByte d) = true := by
  unfold isdigit
  rw [digitByte_val d h]
  simp
  omega

theorem isspace_digitByte (d : Nat) (h : d < 10) : isspace (digitByte d) = false := by
  unfold isspace
  rw [digitByte_val d h]
  simp
  omega

theorem decimalDigits_append (fuel n : Nat) (acc : CppString) :
    decimalDigits fuel n acc = decimalDigits fuel n [] ++ acc := by
  induction fuel generalizing n acc with
  | zero => simp [decimalDigits]
  | succ f ih =>
    simp only [decimalDigits]
    split
    · simp
    · rw [ih (n / 10) (digitByte (n % 10) :: acc), ih (n / 10) [digitByte (n % 10)]]
      simp

theorem decimalDigits_succ (fuel n : Nat) :
    decimalDigits (fuel + 1) n [] =
      if n / 10 = 0 then [digitByte (n % 10)]
      else decimalDigits fuel (n / 10) [] ++ [digitByte (n % 10)] := by
  simp only [decimalDigits]
  split
  · rfl
  · rw [decimalDigits_append]

theorem digitsValue_append (xs ys : CppString) (acc : Nat) :
    digitsValue (xs ++ ys) acc = digitsValue ys (digitsValue xs acc) := by
  simp [digitsValue, List.foldl_append]

theorem decimalDigits_all_digits (fuel n : Nat) :
    ∀ c ∈ decimalDigits fuel n [], isdigit c = true := by
  induction fuel generalizing n with
  | zero => simp [decimalDigits]
  | succ f ih =>
    rw [decimalDigits_succ]
    split
    · intro c hc
      simp at hc
      subst hc
      exact isdigit_digitByte _ (Nat.mod_lt _ (by decide))
    · intro c hc
      rw [List.mem_append] at hc
      rcases hc with hc | hc
      · exact ih _ c hc
      · simp at hc
        subst hc
        exact isdigit_digitByte _ (Nat.mod_lt _ (by decide))

theorem decimalDigits_value (fuel n : Nat) (h : n < fuel) :
    digitsValue (decimalDigits fuel n []) 0 = n := by
  induction fuel generalizing n with
  | zero => omega
  | succ f ih =>
    rw [decimalDigits_succ]
    have hd : (digitByte (n % 10)).val = 48 + n % 10 :=
      digitByte_val _ (Nat.mod_lt _ (by decide))
    split
    · rename_i h0
      simp [digitsValue, hd]
      omega
    · rename_i h0
      rw [digitsValue_append, ih (n / 10) (by omega)]
      simp [digitsValue, hd]
      omega

theorem decimalDigits_ne_nil (fuel n : Nat) : decimalDigits (fuel + 1) n [] ≠ [] := by
  rw [decimalDigits_succ]
  split <;> simp

theorem to_string_value (n : Nat) : digitsValue (to_string n) 0 = n :=
  decimalDigits_value (n + 1) n (by omega)

theorem to_string_all_digits (n : Nat) : ∀ c ∈ to_string n, isdigit c = true :=
  decimalDigits_all_digits (n + 1) n

theorem to_string_ne_nil (n : Nat) : to_string n ≠ [] := decimalDigits_ne_nil n n

theorem isdigit_not_space (c : Byte) (h : isdigit c = true) : isspace c = false := by
  unfold isdigit at h
  unfold isspace
  simp at h ⊢
  omega

theorem stoi_digits (s : CppString) (hne : s ≠ []) (hd : ∀ c ∈ s, isdigit c = true) :
    stoi s = if (digitsValue s 0 : Int) ≤ INT_MAX then .ok (digitsValue s 0 : Int)
      else .error .out_of_range := by
  obtain ⟨c, t, rfl⟩ := List.exists_cons_of_ne_nil hne
  have hc : isdigit c = true := hd c (by simp)
  have hs : isspace c = false := isdigit_not_space c hc
  have h45 : c ≠ 45 := by
    intro h; subst h; exact absurd hc (by decide)
  have h43 : c ≠ 43 := by
    intro h; subst h; exact absurd hc (by decide)
  have htw : List.takeWhile isdigit (c :: t) = c :: t := by
    rw [List.takeWhile_eq_self_iff]
    exact hd
  have hnn : (0 : Int) ≤ (digitsValue (c :: t) 0 : Int) := Int.ofNat_nonneg _
  have hmin : ¬ ((digitsValue (c :: t) 0 : Int) < INT_MIN) := by
    unfold INT_MIN; omega
  have e : stoi (c :: t) = stoiRange (digitsValue (c :: t) 0 : Int) := by
    unfold stoi
    simp only [List.dropWhile_cons, hs, List.head?_cons, Option.some.injEq, h45, h43,
      or_self, if_false, htw, Bool.false_eq_true, reduceCtorEq]
  rw [e]
  unfold stoiRange
  simp only [hmin, false_or]
  by_cases h : (digitsValue (c :: t) 0 : Int) ≤ INT_MAX
  · rw [if_neg (not_lt.mpr h), if_pos h]
  · rw [if_pos (not_le.mp h), if_neg h]

theorem stoi_to_string (n : Nat) :
    stoi (to_string n) = if n ≤ 2147483647 then .ok (n : Int) else .error .out_of_range := by
  rw [stoi_digits _ (to_string_ne_nil n) (to_string_all_digits n), to_string_value]
  unfold INT_MAX
  split <;> rename_i h
  · rw [if_pos (by omega)]
  · rw [if_neg (by omega)]

/-! ## The decoder -/

/-- The fields of a decoded packet, in the key order of the map. -/
theorem decodePacket_eq (data : Buffer) :
    decodePacket data =
      [(cstr "buysellindicator", [data 4]),
       (cstr "packetSequence", to_string (sequenceField data)),
       (cstr "price", to_string (convertBytesToUint32 (data 9) (data 10) (data 11) (data 12))),
       (cstr "quantity", to_string (convertBytesToUint32 (data 5) (data 6) (data 7) (data 8))),
       (cstr "symbol", [data 0, data 1, data 2, data 3])] := by
  have h1 : cstr "buysellindicator" < cstr "symbol" := by decide
  have h2 : ¬ cstr "quantity" < cstr "buysellindicator" := by decide
  have h3 : cstr "quantity" ≠ cstr "buysellindicator" := by decide
  have h4 : cstr "quantity" < cstr "symbol" := by decide
  have h5 : ¬ cstr "price" < cstr "buysellindicator" := by decide
  have h6 : cstr "price" ≠ cstr "buysellindicator" := by decide
  have h7 : cstr "price" < cstr "quantity" := by decide
  have h8 : ¬ cstr "packetSequence" < cstr "buysellindicator" := by decide
  have h9 : cstr "packetSequence" ≠ cstr "buysellindicator" := by decide
  have h10 : cstr "packetSequence" < cstr "price" := by decide
  simp only [decodePacket, StdMap.assign, h1, h2, h3, h4, h5, h6, h7, h8, h9, h10, if_true,
    if_false, sequenceField]

theorem find_packetSequence (data : Buffer) :
    (decodePacket data).find (cstr "packetSequence") = some (to_string (sequenceField data)) := by
  have h9 : cstr "packetSequence" ≠ cstr "buysellindicator" := by decide
  rw [decodePacket_eq]
  simp only [StdMap.find, h9, if_false, if_true]

theorem sequenceOf_decodePacket (data : Buffer) :
    sequenceOf (decodePacket data) =
      if sequenceField data ≤ 2147483647 then .ok (sequenceField data : Int)
      else .error .out_of_range := by
  unfold sequenceOf StdMap.at_
  rw [find_packetSequence]
  exact stoi_to_string _

theorem storePacket_eq (data : Buffer) (packets : StdMap Int Packet) :
    storePacket data packets =
      if sequenceField data ≤ 2147483647 then
        .ok (packets.assign (sequenceField data : Int) (decodePacket data))
      else .error .out_of_range := by
  unfold storePacket StdMap.subscript
  rw [find_packetSequence]
  simp only [stoi_to_string]
  by_cases h : sequenceField data ≤ 2147483647
  · simp only [h, if_true]
  · simp only [h, if_false]

theorem sequenceField_lt (data : Buffer) : sequenceField data < 2 ^ 32 :=
  convertBytesToUint32_lt _ _ _ _

/-! ## Decode layout and round trip -/

theorem find_fields (data : Buffer) :
    (decodePacket data).find (cstr "symbol") = some [data 0, data 1, data 2, data 3] ∧
    (decodePacket data).find (cstr "buysellindicator") = some [data 4] ∧
    (decodePacket data).find (cstr "quantity")
      = some (to_string (convertBytesToUint32 (data 5) (data 6) (data 7) (data 8))) ∧
    (decodePacket data).find (cstr "price")
      = some (to_string (convertBytesToUint32 (data 9) (data 10) (data 11) (data 12))) ∧
    (decodePacket data).find (cstr "packetSequence")
      = some (to_string (convertBytesToUint32 (data 13) (data 14) (data 15) (data 16))) := by
  have a1 : cstr "symbol" ≠ cstr "buysellindicator" := by decide
  have a2 : cstr "symbol" ≠ cstr "packetSequence" := by decide
  have a3 : cstr "symbol" ≠ cstr "price" := by decide
  have a4 : cstr "symbol" ≠ cstr "quantity" := by decide
  have a5 : cstr "quantity" ≠ cstr "buysellindicator" := by decide
  have a6 : cstr "quantity" ≠ cstr "packetSequence" := by decide
  have a7 : cstr "quantity" ≠ cstr "price" := by decide
  have a8 : cstr "price" ≠ cstr "buysellindicator" := by decide
  have a9 : cstr "price" ≠ cstr "packetSequence" := by decide
  have a10 : cstr "packetSequence" ≠ cstr "buysellindicator" := by decide
  rw [decodePacket_eq]
  simp only [StdMap.find, a1, a2, a3, a4, a5, a6, a7, a8, a9, a10, if_false, if_true,
    sequenceField, and_self]

theorem bigEndian_value (n : Nat) (h : n < 2 ^ 32) :
    convertBytesToUint32 (Fin.ofNat (n / 2 ^ 24)) (Fin.ofNat (n / 2 ^ 16))
      (Fin.ofNat (n / 2 ^ 8)) (Fin.ofNat n) = n := by
  rw [convertBytesToUint32_eq]
  simp only [Fin.ofNat]
  omega

/-- C3. For every 17-byte block, the decoded record has exactly the five fields:
`symbol` is the first four bytes as they are, `buysellindicator` is byte 4, and
`quantity`, `price`, `packetSequence` are the decimal text of the big-endian value
of bytes 5..8, 9..12, 13..16; each of these values is below `2 ^ 32`. The decoder
is a total function: it has no error result. -/
theorem decode_layout (b : Buffer) :
    (decodePacket b).find (cstr "symbol") = some [b 0, b 1, b 2, b 3] ∧
    (decodePacket b).find (cstr "buysellindicator") = some [b 4] ∧
    (decodePacket b).find (cstr "quantity")
      = some (to_string ((b 5).val * 2 ^ 24 + (b 6).val * 2 ^ 16 + (b 7).val * 2 ^ 8 + (b 8).val)) ∧
    (decodePacket b).find (cstr "price")
      = some (to_string ((b 9).val * 2 ^ 24 + (b 10).val * 2 ^ 16 + (b 11).val * 2 ^ 8 + (b 12).val)) ∧
    (decodePacket b).find (cstr "packetSequence")
      = some (to_string ((b 13).val * 2 ^ 24 + (b 14).val * 2 ^ 16 + (b 15).val * 2 ^ 8 + (b 16).val)) ∧
    (b 5).val * 2 ^ 24 + (b 6).val * 2 ^ 16 + (b 7).val * 2 ^ 8 + (b 8).val < 2 ^ 32 ∧
    (b 9).val * 2 ^ 24 + (b 10).val * 2 ^ 16 + (b 11).val * 2 ^ 8 + (b 12).val < 2 ^ 32 ∧
    (b 13).val * 2 ^ 24 + (b 14).val * 2 ^ 16 + (b 15).val * 2 ^ 8 + (b 16).val < 2 ^ 32 ∧
    (decodePacket b).keys = [cstr "buysellindicator", cstr "packetSequence", cstr "price",
      cstr "quantity", cstr "symbol"] := by
  have h := find_fields b
  simp only [convertBytesToUint32_eq] at h
  obtain ⟨h1, h2, h3, h4, h5⟩ := h
  refine ⟨h1, h2, h3, h4, h5, ?_, ?_, ?_, ?_⟩
  · rw [← convertBytesToUint32_eq]; exact convertBytesToUint32_lt _ _ _ _
  · rw [← convertBytesToUint32_eq]; exact convertBytesToUint32_lt _ _ _ _
  · rw [← convertBytesToUint32_eq]; exact convertBytesToUint32_lt _ _ _ _
  · rw [decodePacket_eq]; rfl

/-- C2. Encoding a record whose three numbers fit in 32 bits into the 17-byte wire
layout and decoding that block gives back the record: the symbol and side bytes,
and the decimal text of quantity, price and sequence. -/
theorem decode_round_trip (r : Record) (hq : r.quantity < 2 ^ 32) (hp : r.price < 2 ^ 32)
    (hs : r.sequence < 2 ^ 32) :
    (decodePacket (bufferOfList (encodePacket r))).find (cstr "symbol")
      = some [r.symbol 0, r.symbol 1, r.symbol 2, r.symbol 3] ∧
    (decodePacket (bufferOfList (encodePacket r))).find (cstr "buysellindicator")
      = some [r.side] ∧
    (decodePacket (bufferOfList (encodePacket r))).find (cstr "quantity")
      = some (to_string r.quantity) ∧
    (decodePacket (bufferOfList (encodePacket r))).find (cstr "price")
      = some (to_string r.price) ∧
    (decodePacket (bufferOfList (encodePacket r))).find (cstr "packetSequence")
      = some (to_string r.sequence) ∧
    (decodePacket (bufferOfList (encodePacket r))).keys
      = [cstr "buysellindicator", cstr "packetSequence", cstr "price", cstr "quantity",
         cstr "symbol"] := by
  obtain ⟨h1, h2, h3, h4, h5⟩ := find_fields (bufferOfList (encodePacket r))
  refine ⟨?_, ?_, ?_, ?_, ?_, ?_⟩
  · rw [h1]; rfl
  · rw [h2]; rfl
  · rw [h3]
    exact congrArg (fun v => some (to_string v)) (bigEndian_value r.quantity hq)
  · rw [h4]
    exact congrArg (fun v => some (to_string v)) (bigEndian_value r.price hp)
  · rw [h5]
    exact congrArg (fun v => some (to_string v)) (bigEndian_value r.sequence hs)
  · rw [decodePacket_eq]; rfl

theorem decode_round_trip_witness :
    sampleRecord.quantity < 2 ^ 32 ∧ sampleRecord.price < 2 ^ 32 ∧
    sampleRecord.sequence < 2 ^ 32 ∧
    (decodePacket (bufferOfList (encodePacket sampleRecord))).find (cstr "symbol")
      = some [sampleRecord.symbol 0, sampleRecord.symbol 1, sampleRecord.symbol 2,
          sampleRecord.symbol 3] ∧
    (decodePacket (bufferOfList (encodePacket sampleRecord))).find (cstr "buysellindicator")
      = some [sampleRecord.side] ∧
    (decodePacket (bufferOfList (encodePacket sampleRecord))).find (cstr "quantity")
      = some (to_string sampleRecord.quantity) ∧
    (decodePacket (bufferOfList (encodePacket sampleRecord))).find (cstr "price")
      = some (to_string sampleRecord.price) ∧
    (decodePacket (bufferOfList (encodePacket sampleRecord))).find (cstr "packetSequence")
      = some (to_string sampleRecord.sequence) ∧
    (decodePacket (bufferOfList (encodePacket sampleRecord))).keys
      = [cstr "buysellindicator", cstr "packetSequence", cstr "price", cstr "quantity",
         cstr "symbol"] :=
  ⟨by decide, by decide, by decide,
    decode_round_trip sampleRecord (by decide) (by decide) (by decide)⟩

/-! ## Ordered containers -/

namespace StdMap

variable {κ ν : Type} [LinearOrder κ]

theorem keys_assign (m : StdMap κ ν) (k : κ) (v : ν) :
    keys (assign m k v) = StdSet.insert (keys m) k := by
  induction m with
  | nil => rfl
  | cons e rest ih =>
    obtain ⟨k', v'⟩ := e
    simp only [assign, keys, List.map_cons, StdSet.insert]
    by_cases h1 : k < k'
    · simp [h1]
    · by_cases h2 : k = k'
      · simp [h2]
      · simp only [h1, h2, if_false, List.map_cons]
        exact congrArg (List.cons k') ih

theorem find_assign_self (m : StdMap κ ν) (k : κ) (v : ν) :
    find (assign m k v) k = some v := by
  induction m with
  | nil => simp [assign, find]
  | cons e rest ih =>
    obtain ⟨k', v'⟩ := e
    simp only [assign]
    by_cases h1 : k < k'
    · simp [h1, find]
    · by_cases h2 : k = k'
      · simp [h2, find]
      · simp [h1, h2, find, ih]

theorem find_assign_ne (m : StdMap κ ν) (k k2 : κ) (v : ν) (hne : k2 ≠ k) :
    find (assign m k v) k2 = find m k2 := by
  induction m with
  | nil => simp [assign, find, hne]
  | cons e rest ih =>
    obtain ⟨k', v'⟩ := e
    simp only [assign]
    by_cases h1 : k < k'
    · simp [h1, find, hne]
    · by_cases h2 : k = k'
      · subst h2
        simp [find, hne]
      · simp only [h1, h2, if_false, find, ih]

theorem find_eq_none_iff (m : StdMap κ ν) (k : κ) : find m k = none ↔ k ∉ keys m := by
  induction m with
  | nil => simp [find, keys]
  | cons e rest ih =>
    obtain ⟨k', v'⟩ := e
    simp only [find, keys, List.map_cons, List.mem_cons, not_or]
    by_cases h : k = k'
    · simp [h]
    · simp only [h, if_false, not_false_eq_true, true_and]
      exact ih

theorem mem_of_find (m : StdMap κ ν) (k : κ) (v : ν) (h : find m k = some v) : (k, v) ∈ m := by
  induction m with
  | nil => simp [find] at h
  | cons e rest ih =>
    obtain ⟨k', v'⟩ := e
    simp only [find] at h
    by_cases hk : k = k'
    · simp only [hk, if_true, Option.some.injEq] at h
      simp [hk, h]
    · simp only [hk, if_false] at h
      exact List.mem_cons_of_mem _ (ih h)

theorem mem_assign (m : StdMap κ ν) (k : κ) (v : ν) (e : κ × ν) (h : e ∈ assign m k v) :
    e = (k, v) ∨ e ∈ m := by
  induction m with
  | nil =>
    simp only [assign, List.mem_singleton] at h
    exact Or.inl h
  | cons e' rest ih =>
    obtain ⟨k', v'⟩ := e'
    simp only [assign] at h
    by_cases h1 : k < k'
    · simp only [h1, if_true, List.mem_cons] at h
      rcases h with h | h
      · exact Or.inl h
      · exact Or.inr (List.mem_cons.mpr h)
    · by_cases h2 : k = k'
      · subst h2
        simp only [h1, if_false, if_true, List.mem_cons] at h
        rcases h with h | h
        · exact Or.inl h
        · exact Or.inr (List.mem_cons_of_mem _ h)
      · simp only [h1, h2, if_false, List.mem_cons] at h
        rcases h with h | h
        · exact Or.inr (List.mem_cons.mpr (Or.inl h))
        · rcases ih h with h | h
          · exact Or.inl h
          · exact Or.inr (List.mem_cons_of_mem _ h)

end StdMap

namespace StdSet

variable {κ : Type} [LinearOrder κ]

theorem mem_insert (s : StdSet κ) (k x : κ) : x ∈ insert s k ↔ x = k ∨ x ∈ s := by
  induction s with
  | nil => simp [insert]
  | cons k' rest ih =>
    simp only [insert]
    by_cases h1 : k < k'
    · simp [h1]
    · by_cases h2 : k = k'
      · subst h2
        simp
      · simp only [h1, h2, if_false, List.mem_cons, ih]
        tauto

theorem sorted_insert (s : StdSet κ) (k : κ) (h : s.Pairwise (· < ·)) :
    (insert s k).Pairwise (· < ·) := by
  induction s with
  | nil => simp [insert]
  | cons k' rest ih =>
    rw [List.pairwise_cons] at h
    simp only [insert]
    by_cases h1 : k < k'
    · simp only [h1, if_true, List.pairwise_cons]
      refine ⟨?_, h.1, h.2⟩
      intro x hx
      rcases List.mem_cons.mp hx with hx | hx
      · exact hx ▸ h1
      · exact lt_trans h1 (h.1 x hx)
    · by_cases h2 : k = k'
      · simp only [h2, lt_self_iff_false, if_false, if_true, List.pairwise_cons]
        exact h
      · simp only [h1, h2, if_false, List.pairwise_cons]
        refine ⟨?_, ih h.2⟩
        intro x hx
        rcases (mem_insert rest k x).mp hx with hx | hx
        · exact hx ▸ lt_of_le_of_ne (not_lt.mp h1) (Ne.symm h2)
        · exact h.1 x hx

theorem insert_of_mem (s : StdSet κ) (k : κ) (h : s.Pairwise (· < ·)) (hk : k ∈ s) :
    insert s k = s := by
  induction s with
  | nil => simp at hk
  | cons k' rest ih =>
    rw [List.pairwise_cons] at h
    simp only [insert]
    by_cases h2 : k = k'
    · simp [h2]
    · have hk' : k ∈ rest := by
        rcases List.mem_cons.mp hk with hk | hk
        · exact absurd hk h2
        · exact hk
      have h1 : ¬ k < k' := not_lt.mpr (le_of_lt (h.1 k hk'))
      simp only [h1, h2, if_false]
      exact congrArg (List.cons k') (ih h.2 hk')

end StdSet

namespace StdMap

variable {κ ν : Type} [LinearOrder κ]

theorem mem_keys_assign (m : StdMap κ ν) (k x : κ) (v : ν) :
    x ∈ keys (assign m k v) ↔ x = k ∨ x ∈ keys m := by
  rw [keys_assign]
  exact StdSet.mem_insert _ _ _

theorem sorted_assign (m : StdMap κ ν) (k : κ) (v : ν) (h : (keys m).Pairwise (· < ·)) :
    (keys (assign m k v)).Pairwise (· < ·) := by
  rw [keys_assign]
  exact StdSet.sorted_insert _ _ h

theorem length_assign_of_mem (m : StdMap κ ν) (k : κ) (v : ν)
    (h : (keys m).Pairwise (· < ·)) (hk : k ∈ keys m) :
    (assign m k v).length = m.length := by
  have e : (keys (assign m k v)).length = (keys m).length := by
    rw [keys_assign, StdSet.insert_of_mem _ _ h hk]
  simpa [keys] using e

end StdMap

/-! ## The invariant of the record set and the loops -/

theorem stoiRange_ok (v w : Int) (h : stoiRange v = .ok w) :
    INT_MIN ≤ w ∧ w ≤ INT_MAX := by
  unfold stoiRange at h
  split at h
  · exact absurd h (by simp)
  · rename_i hr
    simp only [Except.ok.injEq] at h
    subst h
    constructor
    · exact not_lt.mp (fun hh => hr (Or.inl hh))
    · exact not_lt.mp (fun hh => hr (Or.inr hh))

theorem stoi_range (s : CppString) (v : Int) (h : stoi s = .ok v) :
    INT_MIN ≤ v ∧ v ≤ INT_MAX := by
  unfold stoi at h
  simp only at h
  split_ifs at h <;> first | exact absurd h (by simp) | exact stoiRange_ok _ _ h

theorem sequenceOf_range (p : Packet) (v : Int) (h : sequenceOf p = .ok v) :
    INT_MIN ≤ v ∧ v ≤ INT_MAX := by
  unfold sequenceOf at h
  split at h
  · exact absurd h (by simp)
  · exact stoi_range _ _ h

theorem consistent_nil : Consistent [] := by
  constructor
  · simp [StdMap.keys]
  · intro e he
    simp at he

theorem storePacket_ok (data : Buffer) (packets packets' : StdMap Int Packet)
    (h : storePacket data packets = .ok packets') :
    sequenceField data ≤ 2147483647 ∧
      packets' = packets.assign (sequenceField data : Int) (decodePacket data) := by
  rw [storePacket_eq] at h
  by_cases hs : sequenceField data ≤ 2147483647
  · simp only [hs, if_true, Except.ok.injEq] at h
    exact ⟨hs, h.symm⟩
  · simp only [hs, if_false] at h
    exact absurd h (by simp)

theorem storePacket_consistent (data : Buffer) (packets packets' : StdMap Int Packet)
    (hc : Consistent packets) (h : storePacket data packets = .ok packets') :
    Consistent packets' := by
  obtain ⟨hs, rfl⟩ := storePacket_ok data packets packets' h
  constructor
  · exact StdMap.sorted_assign _ _ _ hc.1
  · intro e he
    rcases StdMap.mem_assign _ _ _ _ he with he | he
    · subst he
      simp only [sequenceOf_decodePacket, hs, if_true]
    · exact hc.2 e he

theorem drainLoop_consistent (sent : List (List Byte)) (incoming : List (List Byte)) :
    ∀ (buffer : Buffer) (packets : StdMap Int Packet) (r : List (List Byte) × StdMap Int Packet),
      Consistent packets → drainLoop sent incoming buffer packets = .ok r → Consistent r.2 := by
  induction incoming with
  | nil =>
    intro buffer packets r hc h
    simp only [drainLoop, Except.ok.injEq] at h
    subst h
    exact hc
  | cons chunk rest ih =>
    intro buffer packets r hc h
    simp only [drainLoop] at h
    split at h
    · simp only [Except.ok.injEq] at h
      subst h
      exact hc
    · split at h
      · exact absurd h (by simp)
      · rename_i packets' hst
        exact ih _ _ r (storePacket_consistent _ _ _ hc hst) h

theorem requestLoop_consistent (gaps : List Int) :
    ∀ (sm : SocketManager) (buffer : Buffer) (packets : StdMap Int Packet)
      (r : SocketManager × StdMap Int Packet),
      Consistent packets → requestLoop gaps sm buffer packets = .ok r → Consistent r.2 := by
  induction gaps with
  | nil =>
    intro sm buffer packets r hc h
    simp only [requestLoop, Except.ok.injEq] at h
    subst h
    exact hc
  | cons g rest ih =>
    intro sm buffer packets r hc h
    simp only [requestLoop] at h
    split at h
    · split at h
      · exact absurd h (by simp)
      · rename_i packets' hst
        exact ih _ _ _ r (storePacket_consistent _ _ _ hc hst) h
    · exact ih _ _ _ r hc h

theorem maxSequenceLoop_spec (m : StdMap Int Packet) :
    ∀ m0 : Int, (∀ e ∈ m, sequenceOf e.2 = .ok e.1) →
      ∃ M, maxSequenceLoop m m0 = .ok M ∧ m0 ≤ M ∧ (∀ k ∈ m.keys, k ≤ M) ∧
        (M = m0 ∨ M ∈ m.keys) := by
  induction m with
  | nil =>
    intro m0 _
    exact ⟨m0, rfl, le_refl _, by simp [StdMap.keys], Or.inl rfl⟩
  | cons e rest ih =>
    intro m0 hc
    have he : sequenceOf e.2 = .ok e.1 := hc e (by simp)
    obtain ⟨M, hM, h1, h2, h3⟩ := ih (max m0 e.1) (fun x hx => hc x (List.mem_cons_of_mem _ hx))
    refine ⟨M, ?_, le_trans (le_max_left _ _) h1, ?_, ?_⟩
    · simp only [maxSequenceLoop, he]
      exact hM
    · intro k hk
      simp only [StdMap.keys, List.map_cons, List.mem_cons] at hk
      rcases hk with hk | hk
      · exact hk ▸ le_trans (le_max_right _ _) h1
      · exact h2 k hk
    · rcases h3 with h3 | h3
      · rcases max_choice m0 e.1 with hm | hm
        · exact Or.inl (h3.trans hm)
        · refine Or.inr ?_
          simp only [StdMap.keys, List.map_cons, List.mem_cons]
          exact Or.inl (h3.trans hm)
      · refine Or.inr ?_
        simp only [StdMap.keys, List.map_cons, List.mem_cons]
        exact Or.inr h3

theorem gapLoop_overflow (packets : StdMap Int Packet) (n : Nat) :
    ∀ (i : Int) (missing : StdSet Int), i ≤ INT_MAX → INT_MAX < i + n →
      gapLoop packets n i missing = .error .signed_overflow := by
  induction n with
  | zero =>
    intro i missing h1 h2
    simp at h2
    omega
  | succ n ih =>
    intro i missing h1 h2
    simp only [gapLoop]
    by_cases hi : i = INT_MAX
    · simp [hi]
    · simp only [hi, if_false]
      apply ih
      · omega
      · push_cast at h2
        omega

theorem gapLoop_ok (packets : StdMap Int Packet) (n : Nat) :
    ∀ (i : Int) (missing : StdSet Int), i + n ≤ INT_MAX →
      ∃ r, gapLoop packets n i missing = .ok r ∧
        (∀ x, x ∈ r ↔ x ∈ missing ∨ (i ≤ x ∧ x < i + n ∧ x ∉ packets.keys)) ∧
        (missing.Pairwise (· < ·) → r.Pairwise (· < ·)) := by
  induction n with
  | zero =>
    intro i missing _
    refine ⟨missing, rfl, ?_, fun h => h⟩
    intro x
    simp
    omega
  | succ n ih =>
    intro i missing h
    have hi : i ≠ INT_MAX := by
      push_cast at h
      omega
    obtain ⟨r, hr, hmem, hsorted⟩ :=
      ih (i + 1) (if packets.find i = none then missing.insert i else missing)
        (by push_cast at h; omega)
    refine ⟨r, ?_, ?_, ?_⟩
    · simp only [gapLoop, hi, if_false]
      exact hr
    · intro x
      rw [hmem x]
      by_cases hf : packets.find i = none
      · have hk : i ∉ packets.keys := (StdMap.find_eq_none_iff _ _).mp hf
        simp only [hf, if_true, StdSet.mem_insert]
        push_cast
        constructor
        · rintro ((h1 | h1) | h1)
          · subst h1
            exact Or.inr ⟨le_refl _, by omega, hk⟩
          · exact Or.inl h1
          · exact Or.inr ⟨by omega, by omega, h1.2.2⟩
        · rintro (h1 | h1)
          · exact Or.inl (Or.inr h1)
          · by_cases hx : x = i
            · exact Or.inl (Or.inl hx)
            · exact Or.inr ⟨by omega, by omega, h1.2.2⟩
      · have hk : ¬ i ∉ packets.keys := fun hh => hf ((StdMap.find_eq_none_iff _ _).mpr hh)
        simp only [hf, if_false]
        push_cast
        constructor
        · rintro (h1 | h1)
          · exact Or.inl h1
          · exact Or.inr ⟨by omega, by omega, h1.2.2⟩
        · rintro (h1 | h1)
          · exact Or.inl h1
          · by_cases hx : x = i
            · subst hx
              exact absurd h1.2.2 hk
            · exact Or.inr ⟨by omega, by omega, h1.2.2⟩
    · intro hs
      apply hsorted
      split
      · exact StdSet.sorted_insert _ _ hs
      · exact hs

/-! ## Gap computation -/

theorem fillBuffer_full (buffer : Buffer) (chunk : List Byte) (h : 17 ≤ chunk.length) :
    fillBuffer buffer chunk = bufferOfList chunk := by
  funext i
  have hi : i.val < chunk.length := lt_of_lt_of_le i.isLt h
  simp [fillBuffer, bufferOfList, List.getD, List.getElem?_eq_getElem hi]

theorem bytesReadOf_pos (chunk : List Byte) : 0 < bytesReadOf chunk ↔ chunk ≠ [] := by
  unfold bytesReadOf
  cases chunk with
  | nil => simp
  | cons a t =>
    simp

theorem consistent_bounds (packets : StdMap Int Packet) (hc : Consistent packets) :
    ∀ k ∈ packets.keys, k ≤ INT_MAX := by
  intro k hk
  simp only [StdMap.keys, List.mem_map] at hk
  obtain ⟨e, he, rfl⟩ := hk
  exact (sequenceOf_range _ _ (hc.2 e he)).2

/-- The largest sequence read by the first loop of `identifyMissingSequences`. -/
theorem maxSequence_consistent (packets : StdMap Int Packet) (hc : Consistent packets) :
    ∃ M, maxSequenceLoop packets 0 = .ok M ∧ 0 ≤ M ∧ M ≤ INT_MAX ∧
      (∀ k ∈ packets.keys, k ≤ M) ∧ (M = 0 ∨ M ∈ packets.keys) := by
  obtain ⟨M, h1, h2, h3, h4⟩ := maxSequenceLoop_spec packets 0 hc.2
  refine ⟨M, h1, h2, ?_, h3, h4⟩
  rcases h4 with h4 | h4
  · rw [h4]; decide
  · exact consistent_bounds packets hc M h4

theorem identify_ok (c : ExchangeClient) (M : Int) (hM : maxSequenceLoop c.packets 0 = .ok M)
    (h0 : 0 ≤ M) (hlt : M < INT_MAX) :
    ∃ gaps, c.identifyMissingSequences = .ok { c with missingSequences := gaps } ∧
      (∀ x, x ∈ gaps ↔ x ∈ c.missingSequences ∨ (1 ≤ x ∧ x ≤ M ∧ x ∉ c.packets.keys)) ∧
      (c.missingSequences.Pairwise (· < ·) → gaps.Pairwise (· < ·)) := by
  have hn : ((M + 1 - 1).toNat : Int) = M := by
    rw [Int.toNat_of_nonneg (by omega)]
    omega
  obtain ⟨r, hr, hmem, hs⟩ := gapLoop_ok c.packets (M + 1 - 1).toNat 1 c.missingSequences
    (by rw [hn]; omega)
  refine ⟨r, ?_, ?_, hs⟩
  · simp only [ExchangeClient.identifyMissingSequences, hM, hr]
  · intro x
    rw [hmem x, hn]
    constructor
    · rintro (h | h)
      · exact Or.inl h
      · exact Or.inr ⟨h.1, by omega, h.2.2⟩
    · rintro (h | h)
      · exact Or.inl h
      · exact Or.inr ⟨h.1, by omega, h.2.2⟩

theorem drain_consistent (c c' : ExchangeClient) (buffer : Buffer) (hc : Consistent c.packets)
    (h : c.drain buffer = .ok c') :
    Consistent c'.packets ∧ c'.missingSequences = c.missingSequences ∧ c'.files = c.files ∧
      c'.socketManager.sent = c.socketManager.sent ++ [[1, 0]] := by
  unfold ExchangeClient.drain at h
  simp only at h
  split at h
  · exact absurd h (by simp)
  · rename_i incoming packets hd
    simp only [Except.ok.injEq] at h
    subst h
    exact ⟨drainLoop_consistent _ _ _ _ _ hc hd, rfl, rfl, rfl⟩

theorem requestLoop_sent (gaps : List Int) :
    ∀ (sm : SocketManager) (buffer : Buffer) (packets : StdMap Int Packet)
      (r : SocketManager × StdMap Int Packet),
      requestLoop gaps sm buffer packets = .ok r →
        r.1.sent = sm.sent ++ gaps.map resendFrame := by
  induction gaps with
  | nil =>
    intro sm buffer packets r h
    simp only [requestLoop, Except.ok.injEq] at h
    subst h
    simp
  | cons g rest ih =>
    intro sm buffer packets r h
    have hs : ((sm.sendRequest 2 (toUint8 g)).receiveData buffer).2.2.sent
        = sm.sent ++ [resendFrame g] := by
      unfold SocketManager.receiveData SocketManager.sendRequest resendFrame
      cases sm.incoming <;> rfl
    simp only [requestLoop] at h
    split at h
    · split at h
      · exact absurd h (by simp)
      · rw [ih _ _ _ r h, hs]
        simp
    · rw [ih _ _ _ r h, hs]
      simp

theorem identify_overflow (c : ExchangeClient) (M : Int)
    (hM : maxSequenceLoop c.packets 0 = .ok M) (hmax : M = INT_MAX) :
    c.identifyMissingSequences
      = .error { fault := .signed_overflow, socket := c.socketManager } := by
  have h1 : (1 : Int) ≤ INT_MAX := by unfold INT_MAX; omega
  have h2 : INT_MAX < 1 + ((M + 1 - 1).toNat : Int) := by
    rw [Int.toNat_of_nonneg (by rw [hmax]; unfold INT_MAX; omega)]
    omega
  have h := gapLoop_overflow c.packets (M + 1 - 1).toNat 1 c.missingSequences h1 h2
  unfold ExchangeClient.identifyMissingSequences
  rw [hM]
  simp only
  rw [h]

/-! ## Ordering of the output -/

theorem sequenceField_frameWithSequence (n : Nat) (h : n < 2 ^ 32) :
    sequenceField (bufferOfList (frameWithSequence n)) = n :=
  bigEndian_value n h

theorem drain_init (incoming : List (List Byte)) (buffer : Buffer) (c : ExchangeClient)
    (h : (ExchangeClient.init incoming).drain buffer = .ok c) :
    Consistent c.packets ∧ c.missingSequences = [] ∧ c.files = [] ∧
      c.socketManager.sent = [[1, 0]] := by
  obtain ⟨h1, h2, h3, h4⟩ := drain_consistent _ _ _ consistent_nil h
  exact ⟨h1, h2, h3, h4⟩

theorem identify_packets (c c1 : ExchangeClient) (h : c.identifyMissingSequences = .ok c1) :
    c1.packets = c.packets ∧ c1.socketManager = c.socketManager ∧ c1.files = c.files := by
  unfold ExchangeClient.identifyMissingSequences at h
  split at h
  · exact absurd h (by simp)
  · split at h
    · exact absurd h (by simp)
    · simp only [Except.ok.injEq] at h
      subst h
      exact ⟨rfl, rfl, rfl⟩

theorem request_fields (c c2 : ExchangeClient) (buffer : Buffer)
    (h : c.requestMissingPackets buffer = .ok c2) :
    requestLoop c.missingSequences c.socketManager buffer c.packets
        = .ok (c2.socketManager, c2.packets) ∧
      c2.missingSequences = c.missingSequences ∧ c2.files = c.files := by
  unfold ExchangeClient.requestMissingPackets at h
  split at h
  · exact absurd h (by simp)
  · rename_i sm packets hr
    simp only [Except.ok.injEq] at h
    subst h
    exact ⟨hr, rfl, rfl⟩

/-- Every stage of a normal run of `retrieveData`. -/
theorem retrieveData_stages (c0 c : ExchangeClient) (buffer buffer2 : Buffer)
    (h : c0.retrieveData buffer buffer2 = .ok c) :
    ∃ c1 c2 c3, c0.drain buffer = .ok c1 ∧ c1.identifyMissingSequences = .ok c2 ∧
      c2.requestMissingPackets buffer2 = .ok c3 ∧ c = c3.saveDataAsJSON (cstr "output.json") := by
  unfold ExchangeClient.retrieveData at h
  split at h
  · exact absurd h (by simp)
  · rename_i c1 h1
    split at h
    · exact absurd h (by simp)
    · rename_i c2 h2
      split at h
      · exact absurd h (by simp)
      · rename_i c3 h3
        simp only [Except.ok.injEq] at h
        exact ⟨c1, c2, c3, h1, h2, h3, h.symm⟩

theorem consistent_output (packets : StdMap Int Packet) (hc : Consistent packets) :
    (packets.map Prod.snd).Pairwise
      (fun p q => ∃ a b, sequenceOf p = .ok a ∧ sequenceOf q = .ok b ∧ a < b) := by
  rw [List.pairwise_map]
  have hk := hc.1
  unfold StdMap.keys at hk
  rw [List.pairwise_map] at hk
  exact hk.imp_of_mem (fun {e1 e2} h1 h2 hlt => ⟨e1.1, e2.1, hc.2 e1 h1, hc.2 e2 h2, hlt⟩)

/-- C5. Whatever the receive calls deliver and in whatever order, when
`retrieveData` reaches `saveDataAsJSON` the file `output.json` holds the
serialization of `outputData`, and in that list the `packetSequence` values of the
records are strictly ascending. -/
theorem output_sorted_by_sequence (incoming : List (List Byte)) (buffer buffer2 : Buffer)
    (c : ExchangeClient)
    (h : (ExchangeClient.init incoming).retrieveData buffer buffer2 = .ok c) :
    c.files = [(cstr "output.json", serialize c.outputData)] ∧
    c.outputData.Pairwise
      (fun p q => ∃ a b, sequenceOf p = .ok a ∧ sequenceOf q = .ok b ∧ a < b) := by
  obtain ⟨c1, c2, c3, h1, h2, h3, rfl⟩ := retrieveData_stages _ _ _ _ h
  obtain ⟨hc1, -, hf1, -⟩ := drain_init _ _ _ h1
  obtain ⟨hp2, -, hf2⟩ := identify_packets _ _ h2
  obtain ⟨hr, -, hf3⟩ := request_fields _ _ _ h3
  have hc3 : Consistent c3.packets :=
    requestLoop_consistent _ _ _ _ _ (hp2 ▸ hc1) hr
  constructor
  · simp only [ExchangeClient.saveDataAsJSON, ExchangeClient.outputData, hf3, hf2, hf1,
      List.nil_append]
  · exact consistent_output _ hc3

set_option maxRecDepth 100000 in
theorem output_sorted_by_sequence_witness :
    (ExchangeClient.init sampleIncoming).retrieveData zeroBuffer zeroBuffer
      = .ok (finalOf ((ExchangeClient.init sampleIncoming).retrieveData zeroBuffer zeroBuffer)) ∧
    (finalOf ((ExchangeClient.init sampleIncoming).retrieveData zeroBuffer zeroBuffer)).packets.keys
      = [1, 2, 3, 4, 5] ∧
    (finalOf ((ExchangeClient.init sampleIncoming).retrieveData zeroBuffer zeroBuffer)).files
      = [(cstr "output.json", serialize (finalOf
          ((ExchangeClient.init sampleIncoming).retrieveData zeroBuffer zeroBuffer)).outputData)] ∧
    (finalOf ((ExchangeClient.init sampleIncoming).retrieveData zeroBuffer zeroBuffer)).outputData.Pairwise
      (fun p q => ∃ a b, sequenceOf p = .ok a ∧ sequenceOf q = .ok b ∧ a < b) :=
  ⟨by decide, by decide,
    output_sorted_by_sequence sampleIncoming zeroBuffer zeroBuffer _ (by decide)⟩

/-! ## Gap completeness -/

theorem drain_single_frame (frame : List Byte) (buffer : Buffer) (h17 : frame.length = 17)
    (hs : sequenceField (bufferOfList frame) ≤ 2147483647) :
    (ExchangeClient.init [frame]).drain buffer
      = .ok { socketManager := { incoming := [], sent := [[1, 0]] }
              packets := [((sequenceField (bufferOfList frame) : Int),
                decodePacket (bufferOfList frame))]
              missingSequences := []
              files := [] } := by
  have hb : ¬ bytesReadOf frame ≤ 0 := by
    unfold bytesReadOf
    rw [h17]
    decide
  have hf : fillBuffer buffer frame = bufferOfList frame :=
    fillBuffer_full buffer frame (by omega)
  simp only [ExchangeClient.drain, ExchangeClient.init, SocketManager.sendRequest, drainLoop, hb,
    if_false, hf, storePacket_eq, hs, if_true, StdMap.assign, List.nil_append]

/-- C1 (failing input). Draining receives the single frame with sequence
`2147483647`: the record set has that one key, inside `[1, maxSeq]`, and
`identifyMissingSequences` does not produce a gap set, its loop counter overflows. -/
theorem gap_loop_overflow_at_INT_MAX (buffer : Buffer) :
    (ExchangeClient.init [frameWithSequence 2147483647]).drain buffer = .ok overflowState ∧
    overflowState.packets.keys = [2147483647] ∧
    overflowState.identifyMissingSequences
      = .error { fault := .signed_overflow, socket := overflowState.socketManager } := by
  have hseq : sequenceField (bufferOfList (frameWithSequence 2147483647)) = 2147483647 :=
    sequenceField_frameWithSequence 2147483647 (by decide)
  refine ⟨?_, rfl, ?_⟩
  · rw [drain_single_frame (frameWithSequence 2147483647) buffer rfl (by rw [hseq])]
    unfold overflowState
    rw [hseq]
    rfl
  · have hM : maxSequenceLoop overflowState.packets 0 = .ok 2147483647 := by
      simp only [overflowState, maxSequenceLoop, sequenceOf_decodePacket, hseq]
      rfl
    exact identify_overflow overflowState 2147483647 hM rfl

/-- Gap completeness below the overflow: for the record set left by draining, with
largest key `maxSeq < INT_MAX`, `identifyMissingSequences` produces the gap set
`[1, maxSeq]` minus the keys, in ascending order, and changes nothing else. -/
theorem gap_completeness_below_INT_MAX (incoming : List (List Byte)) (buffer : Buffer)
    (c : ExchangeClient) (maxSeq : Int)
    (hd : (ExchangeClient.init incoming).drain buffer = .ok c)
    (hmem : maxSeq ∈ c.packets.keys) (hmax : ∀ k ∈ c.packets.keys, k ≤ maxSeq)
    (hlt : maxSeq < INT_MAX) :
    ∃ gaps, c.identifyMissingSequences = .ok { c with missingSequences := gaps } ∧
      gaps.Pairwise (· < ·) ∧
      ∀ x, x ∈ gaps ↔ 1 ≤ x ∧ x ≤ maxSeq ∧ x ∉ c.packets.keys := by
  obtain ⟨hc, hmiss, -, -⟩ := drain_init _ _ _ hd
  obtain ⟨M, hM, h0, -, hub, hin⟩ := maxSequence_consistent c.packets hc
  have hle : maxSeq ≤ M := hub maxSeq hmem
  have hMlt : M < INT_MAX := by
    rcases hin with hin | hin
    · rw [hin]; decide
    · exact lt_of_le_of_lt (hmax M hin) hlt
  obtain ⟨gaps, hg, hmemg, hsorted⟩ := identify_ok c M hM h0 hMlt
  refine ⟨gaps, hg, hsorted (by rw [hmiss]; exact List.Pairwise.nil), ?_⟩
  intro x
  rw [hmemg x, hmiss]
  have hcase : M = maxSeq ∨ (M = 0 ∧ maxSeq ≤ 0) := by
    rcases hin with hin | hin
    · exact Or.inr ⟨hin, hin ▸ hle⟩
    · exact Or.inl (le_antisymm (hmax M hin) hle)
  constructor
  · rintro (h | ⟨h1, h2, h3⟩)
    · simp at h
    · rcases hcase with hcase | hcase
      · exact ⟨h1, hcase ▸ h2, h3⟩
      · omega
  · rintro ⟨h1, h2, h3⟩
    exact Or.inr ⟨h1, le_trans h2 hle, h3⟩

/-! ## Last write wins -/

theorem sequenceOf_decodePacket_ok (data : Buffer) (s : Int)
    (hs : sequenceOf (decodePacket data) = .ok s) :
    sequenceField data ≤ 2147483647 ∧ s = (sequenceField data : Int) := by
  rw [sequenceOf_decodePacket] at hs
  by_cases h : sequenceField data ≤ 2147483647
  · simp only [h, if_true, Except.ok.injEq] at hs
    exact ⟨h, hs.symm⟩
  · simp only [h, if_false] at hs
    exact absurd hs (by simp)

theorem receiveData_cons (sent : List (List Byte)) (chunk : List Byte)
    (rest : List (List Byte)) (buffer : Buffer) (t q : Byte) :
    (SocketManager.sendRequest { incoming := chunk :: rest, sent := sent } t q).receiveData buffer
      = (bytesReadOf chunk, fillBuffer buffer chunk,
          { incoming := rest, sent := sent ++ [[t, q]] }) := rfl

theorem receiveData_nil (sent : List (List Byte)) (buffer : Buffer) (t q : Byte) :
    (SocketManager.sendRequest { incoming := [], sent := sent } t q).receiveData buffer
      = (-1, buffer, { incoming := [], sent := sent ++ [[t, q]] }) := rfl

/-- C7. When a frame arrives whose sequence `s` is already a key of the record set,
storing it succeeds, the entry for `s` becomes the decode of the new frame, the
number of entries and the keys stay the same, and every other entry is unchanged.
Both receive loops (draining, and the reply to a resend request) store an arriving
frame in exactly this way. -/
theorem last_write_wins (data : Buffer) (packets : StdMap Int Packet) (s : Int)
    (hsorted : packets.keys.Pairwise (· < ·))
    (hs : sequenceOf (decodePacket data) = .ok s)
    (hex : s ∈ packets.keys) :
    ∃ packets', storePacket data packets = .ok packets' ∧
      packets'.find s = some (decodePacket data) ∧
      packets'.length = packets.length ∧
      packets'.keys = packets.keys ∧
      (∀ k, k ≠ s → packets'.find k = packets.find k) ∧
      (∀ (sent : List (List Byte)) (chunk : List Byte) (rest : List (List Byte))
          (buffer : Buffer), chunk ≠ [] → fillBuffer buffer chunk = data →
          drainLoop sent (chunk :: rest) buffer packets = drainLoop sent rest data packets') ∧
      (∀ (g : Int) (gaps : List Int) (sent : List (List Byte)) (chunk : List Byte)
          (rest : List (List Byte)) (buffer : Buffer), chunk ≠ [] →
          fillBuffer buffer chunk = data →
          requestLoop (g :: gaps) { incoming := chunk :: rest, sent := sent } buffer packets
            = requestLoop gaps { incoming := rest, sent := sent ++ [resendFrame g] } data
                packets') := by
  obtain ⟨hle, rfl⟩ := sequenceOf_decodePacket_ok data s hs
  have hst : storePacket data packets
      = .ok (packets.assign (sequenceField data : Int) (decodePacket data)) := by
    rw [storePacket_eq, if_pos hle]
  refine ⟨_, hst, StdMap.find_assign_self _ _ _, StdMap.length_assign_of_mem _ _ _ hsorted hex,
    ?_, fun k hk => StdMap.find_assign_ne _ _ _ _ hk, ?_, ?_⟩
  · rw [StdMap.keys_assign, StdSet.insert_of_mem _ _ hsorted hex]
  · intro sent chunk rest buffer hne hfill
    have hb : ¬ bytesReadOf chunk ≤ 0 := not_le.mpr ((bytesReadOf_pos chunk).mpr hne)
    simp only [drainLoop, hb, if_false, hfill, hst]
  · intro g gaps sent chunk rest buffer hne hfill
    have hb : bytesReadOf chunk > 0 := (bytesReadOf_pos chunk).mpr hne
    simp only [requestLoop, receiveData_cons, hb, if_true, hfill, hst, resendFrame]

set_option maxRecDepth 100000 in
theorem last_write_wins_witness :
    samplePackets.keys.Pairwise (· < ·) ∧
    sequenceOf (decodePacket sampleDuplicate) = .ok 3 ∧
    (3 : Int) ∈ samplePackets.keys ∧
    samplePackets.find 3 ≠ some (decodePacket sampleDuplicate) ∧
    ∃ packets', storePacket sampleDuplicate samplePackets = .ok packets' ∧
      packets'.find 3 = some (decodePacket sampleDuplicate) ∧
      packets'.length = samplePackets.length ∧
      packets'.keys = samplePackets.keys ∧
      (∀ k, k ≠ 3 → packets'.find k = samplePackets.find k) ∧
      (∀ (sent : List (List Byte)) (chunk : List Byte) (rest : List (List Byte))
          (buffer : Buffer), chunk ≠ [] → fillBuffer buffer chunk = sampleDuplicate →
          drainLoop sent (chunk :: rest) buffer samplePackets
            = drainLoop sent rest sampleDuplicate packets') ∧
      (∀ (g : Int) (gaps : List Int) (sent : List (List Byte)) (chunk : List Byte)
          (rest : List (List Byte)) (buffer : Buffer), chunk ≠ [] →
          fillBuffer buffer chunk = sampleDuplicate →
          requestLoop (g :: gaps) { incoming := chunk :: rest, sent := sent } buffer
              samplePackets
            = requestLoop gaps { incoming := rest, sent := sent ++ [resendFrame g] }
                sampleDuplicate packets') :=
  ⟨by decide, by decide, by decide, by decide,
    last_write_wins sampleDuplicate samplePackets 3 (by decide) (by decide) (by decide)⟩

/-! ## Request framing and the request trace -/

theorem toUint8_val (n : Int) : ((toUint8 n).val : Int) = n % 256 := by
  unfold toUint8
  simp only [Fin.ofNat, Fin.val_mk]
  omega

theorem toUint8_eq_iff (n : Int) : ((toUint8 n).val : Int) = n ↔ 0 ≤ n ∧ n ≤ 255 := by
  rw [toUint8_val]
  omega

theorem drainLoop_socket (sent : List (List Byte)) (incoming : List (List Byte)) :
    ∀ (buffer : Buffer) (packets : StdMap Int Packet) (e : Crash),
      drainLoop sent incoming buffer packets = .error e → e.socket.sent = sent := by
  induction incoming with
  | nil =>
    intro buffer packets e h
    simp [drainLoop] at h
  | cons chunk rest ih =>
    intro buffer packets e h
    simp only [drainLoop] at h
    split at h
    · exact absurd h (by simp)
    · split at h
      · simp only [Except.error.injEq] at h
        subst h
        rfl
      · exact ih _ _ e h

theorem drain_sent (c : ExchangeClient) (buffer : Buffer) :
    (socketOf (c.drain buffer)).sent = c.socketManager.sent ++ [[1, 0]] := by
  unfold ExchangeClient.drain
  simp only
  split
  · rename_i e he
    exact drainLoop_socket _ _ _ _ e he
  · rfl

theorem sendReceive_sent (sm : SocketManager) (buffer : Buffer) (g : Int) :
    ((sm.sendRequest 2 (toUint8 g)).receiveData buffer).2.2.sent
      = sm.sent ++ [resendFrame g] := by
  unfold SocketManager.receiveData SocketManager.sendRequest resendFrame
  cases sm.incoming <;> rfl

theorem requestLoop_trace (gaps : List Int) :
    ∀ (sm : SocketManager) (buffer : Buffer) (packets : StdMap Int Packet),
      ∃ k, k ≤ gaps.length ∧
        (loopSocket (requestLoop gaps sm buffer packets)).sent
          = sm.sent ++ (gaps.take k).map resendFrame ∧
        (∀ r, requestLoop gaps sm buffer packets = .ok r → k = gaps.length) := by
  induction gaps with
  | nil =>
    intro sm buffer packets
    exact ⟨0, le_refl _, by simp [requestLoop, loopSocket], fun _ _ => rfl⟩
  | cons g rest ih =>
    intro sm buffer packets
    have hs := sendReceive_sent sm buffer g
    simp only [requestLoop]
    split
    · split
      · refine ⟨1, by simp, ?_, fun r hr => absurd hr (by simp)⟩
        simp only [loopSocket, hs, List.take_succ_cons, List.take_zero, List.map_cons,
          List.map_nil]
      · obtain ⟨k, hk, hsent, hok⟩ := ih ((sm.sendRequest 2 (toUint8 g)).receiveData buffer).2.2
          ((sm.sendRequest 2 (toUint8 g)).receiveData buffer).2.1 _
        refine ⟨k + 1, by simpa using hk, ?_, fun r hr => by simpa using hok r hr⟩
        rw [hsent, hs]
        simp
    · obtain ⟨k, hk, hsent, hok⟩ := ih ((sm.sendRequest 2 (toUint8 g)).receiveData buffer).2.2
        ((sm.sendRequest 2 (toUint8 g)).receiveData buffer).2.1 packets
      refine ⟨k + 1, by simpa using hk, ?_, fun r hr => by simpa using hok r hr⟩
      rw [hsent, hs]
      simp

theorem requestMissingPackets_trace (c : ExchangeClient) (buffer : Buffer) :
    ∃ k, k ≤ c.missingSequences.length ∧
      (socketOf (c.requestMissingPackets buffer)).sent
        = c.socketManager.sent ++ (c.missingSequences.take k).map resendFrame ∧
      (∀ c2, c.requestMissingPackets buffer = .ok c2 → k = c.missingSequences.length) := by
  obtain ⟨k, hk, hsent, hok⟩ :=
    requestLoop_trace c.missingSequences c.socketManager buffer c.packets
  refine ⟨k, hk, ?_, ?_⟩
  · rw [← hsent]
    unfold ExchangeClient.requestMissingPackets
    split <;> rename_i h <;> simp only [h, socketOf, loopSocket]
  · intro c2 h2
    exact hok _ (request_fields _ _ _ h2).1

theorem retrieveData_sent (incoming : List (List Byte)) (buffer buffer2 : Buffer) :
    ∃ gaps : List Int,
      (socketOf ((ExchangeClient.init incoming).retrieveData buffer buffer2)).sent
        = [[1, 0]] ++ gaps.map resendFrame := by
  have hd := drain_sent (ExchangeClient.init incoming) buffer
  unfold ExchangeClient.retrieveData
  split
  · rename_i e he
    refine ⟨[], ?_⟩
    rw [he] at hd
    simpa [socketOf, ExchangeClient.init] using hd
  · rename_i c1 h1
    rw [h1] at hd
    have hd1 : c1.socketManager.sent = [[1, 0]] := by
      simpa [socketOf, ExchangeClient.init] using hd
    split
    · rename_i e he
      refine ⟨[], ?_⟩
      unfold ExchangeClient.identifyMissingSequences at he
      split at he
      · simp only [Except.error.injEq] at he
        subst he
        simpa [socketOf] using hd1
      · split at he
        · simp only [Except.error.injEq] at he
          subst he
          simpa [socketOf] using hd1
        · exact absurd he (by simp)
    · rename_i c2 h2
      obtain ⟨-, hsm, -⟩ := identify_packets _ _ h2
      obtain ⟨k, -, hsent, -⟩ := requestMissingPackets_trace c2 buffer2
      refine ⟨c2.missingSequences.take k, ?_⟩
      rw [hsm, hd1] at hsent
      split
      · rename_i e he
        rw [he] at hsent
        simpa [socketOf] using hsent
      · rename_i c3 h3
        rw [h3] at hsent
        simpa [socketOf, ExchangeClient.saveDataAsJSON] using hsent

/-- C8. Request framing: `sendRequest` sends exactly its two bytes; draining sends
the stream-all frame `[1, 0]`; `requestMissingPackets` sends, for the gap sequences
it gets to, in order, the frame `[2, n mod 256]` (for all of them when it
completes); the parameter byte equals `n` exactly when `0 ≤ n ≤ 255`; and every
frame sent in a run of `retrieveData` has two bytes. -/
theorem request_framing :
    (∀ (s : SocketManager) (t q : Byte), (s.sendRequest t q).sent = s.sent ++ [[t, q]]) ∧
    (∀ (c : ExchangeClient) (buffer : Buffer),
      (socketOf (c.drain buffer)).sent = c.socketManager.sent ++ [[1, 0]]) ∧
    (∀ (c : ExchangeClient) (buffer : Buffer), ∃ k, k ≤ c.missingSequences.length ∧
      (socketOf (c.requestMissingPackets buffer)).sent
        = c.socketManager.sent ++ (c.missingSequences.take k).map (fun n => [2, toUint8 n]) ∧
      (∀ c2, c.requestMissingPackets buffer = .ok c2 → k = c.missingSequences.length)) ∧
    (∀ n : Int, ((toUint8 n).val : Int) = n % 256) ∧
    (∀ n : Int, ((toUint8 n).val : Int) = n ↔ 0 ≤ n ∧ n ≤ 255) ∧
    (∀ (incoming : List (List Byte)) (buffer buffer2 : Buffer),
      (socketOf ((ExchangeClient.init incoming).retrieveData buffer buffer2)).sent.head?
          = some [1, 0] ∧
      ∀ f ∈ (socketOf ((ExchangeClient.init incoming).retrieveData buffer buffer2)).sent,
        f.length = 2) := by
  refine ⟨fun _ _ _ => rfl, drain_sent, requestMissingPackets_trace, toUint8_val,
    toUint8_eq_iff, ?_⟩
  intro incoming buffer buffer2
  obtain ⟨gaps, hg⟩ := retrieveData_sent incoming buffer buffer2
  rw [hg]
  refine ⟨rfl, ?_⟩
  intro f hf
  simp only [List.singleton_append, List.mem_cons, List.mem_map] at hf
  rcases hf with hf | ⟨g, -, hf⟩
  · subst hf; rfl
  · subst hf; rfl

/-- Backfilling that completes has sent exactly one resend request per element of
the gap set, in the order of the set, and has not changed the gap set. -/
theorem backfill_trace_when_completed (c c2 : ExchangeClient) (buffer : Buffer)
    (h : c.requestMissingPackets buffer = .ok c2) :
    c2.socketManager.sent = c.socketManager.sent ++ c.missingSequences.map resendFrame ∧
    c2.missingSequences = c.missingSequences := by
  obtain ⟨hr, hm, -⟩ := request_fields _ _ _ h
  exact ⟨requestLoop_sent _ _ _ _ _ hr, hm⟩

set_option maxRecDepth 100000 in
/-- C9 (failing input). Draining receives the frame with sequence 3, so the gap
set is `[1, 2]`; the reply to the resend request for 1 carries sequence
`2147483648`. `std::stoi` throws on it, nothing catches the exception, and the run
ends after the single request `[2, 1]`: no request is sent for gap 2. -/
theorem backfill_aborts_on_large_reply :
    (ExchangeClient.init [frameWithSequence 3, [], frameWithSequence 2147483648]).drain zeroBuffer
      = .ok { largeReplyState with missingSequences := [] } ∧
    ExchangeClient.identifyMissingSequences { largeReplyState with missingSequences := [] }
      = .ok largeReplyState ∧
    largeReplyState.missingSequences = [1, 2] ∧
    largeReplyState.requestMissingPackets zeroBuffer
      = .error { fault := .out_of_range,
                 socket := { incoming := [], sent := [[1, 0], [2, 1]] } } ∧
    (ExchangeClient.init [frameWithSequence 3, [], frameWithSequence 2147483648]).retrieveData
        zeroBuffer zeroBuffer
      = .error { fault := .out_of_range,
                 socket := { incoming := [], sent := [[1, 0], [2, 1]] } } := by
  refine ⟨by decide, by decide, rfl, by decide, by decide⟩

/-! ## Backfilling against an answering server -/

theorem sorted_ext (l1 l2 : List Int) (h1 : l1.Pairwise (· < ·)) (h2 : l2.Pairwise (· < ·))
    (h : ∀ x, x ∈ l1 ↔ x ∈ l2) : l1 = l2 :=
  List.eq_of_perm_of_sorted ((List.perm_ext_iff_of_nodup h1.nodup h2.nodup).mpr h) h1 h2

/-- The gap set that `identifyMissingSequences` computes from a consistent record
set, when it returns. -/
theorem identify_spec (c c1 : ExchangeClient) (hc : Consistent c.packets)
    (hm : c.missingSequences = []) (hi : c.identifyMissingSequences = .ok c1) :
    c1 = { c with missingSequences := c1.missingSequences } ∧
      c1.missingSequences.Pairwise (· < ·) ∧
      ∃ M, 0 ≤ M ∧ M < INT_MAX ∧ (∀ k ∈ c.packets.keys, k ≤ M) ∧
        (M = 0 ∨ M ∈ c.packets.keys) ∧
        ∀ x, x ∈ c1.missingSequences ↔ 1 ≤ x ∧ x ≤ M ∧ x ∉ c.packets.keys := by
  obtain ⟨M, hM, h0, hle, hub, hin⟩ := maxSequence_consistent c.packets hc
  have hlt : M < INT_MAX := by
    rcases lt_or_eq_of_le hle with h | h
    · exact h
    · rw [identify_overflow c M hM h] at hi
      exact absurd hi (by simp)
  obtain ⟨gaps, hg, hmem, hs⟩ := identify_ok c M hM h0 hlt
  rw [hg] at hi
  simp only [Except.ok.injEq] at hi
  subst hi
  refine ⟨rfl, hs (by rw [hm]; exact List.Pairwise.nil), M, h0, hlt, hub, hin, ?_⟩
  intro x
  rw [hmem x, hm]
  simp

theorem frameWithSequence_length (n : Nat) : (frameWithSequence n).length = 17 := rfl

theorem answersResends_honest (gaps : List Int) :
    answersResends gaps (honestReplies gaps) = true := by
  induction gaps with
  | nil => rfl
  | cons g rest ih =>
    have hlt : (toUint8 g).val < 2 ^ 32 := lt_trans (toUint8 g).isLt (by decide)
    simp only [honestReplies, List.map_cons, answersResends, frameWithSequence_length,
      sequenceField_frameWithSequence _ hlt, decide_True, Bool.true_and]
    exact ih

theorem requestLoop_answered (gaps : List Int) :
    ∀ (sm : SocketManager) (buffer : Buffer) (packets : StdMap Int Packet),
      answersResends gaps sm.incoming = true →
      ∃ r, requestLoop gaps sm buffer packets = .ok r ∧
        ∀ k, k ∈ r.2.keys ↔ k ∈ packets.keys ∨ ∃ g ∈ gaps, k = ((toUint8 g).val : Int) := by
  induction gaps with
  | nil =>
    intro sm buffer packets _
    exact ⟨(sm, packets), rfl, by simp⟩
  | cons g rest ih =>
    intro sm buffer packets h
    obtain ⟨incoming, sent⟩ := sm
    cases incoming with
    | nil => simp [answersResends] at h
    | cons reply replies =>
      simp only [answersResends, Bool.and_eq_true, decide_eq_true_eq] at h
      obtain ⟨⟨h17, hseq⟩, hrest⟩ := h
      have hb : bytesReadOf reply > 0 := (bytesReadOf_pos reply).mpr (by
        intro hnil
        rw [hnil] at h17
        simp at h17)
      have hf : fillBuffer buffer reply = bufferOfList reply :=
        fillBuffer_full buffer reply (by omega)
      have hle : sequenceField (bufferOfList reply) ≤ 2147483647 := by
        rw [hseq]
        have := (toUint8 g).isLt
        omega
      obtain ⟨r, hr, hk⟩ := ih { incoming := replies, sent := sent ++ [[2, toUint8 g]] }
        (bufferOfList reply)
        (packets.assign (sequenceField (bufferOfList reply) : Int)
          (decodePacket (bufferOfList reply))) hrest
      refine ⟨r, ?_, ?_⟩
      · simp only [requestLoop, receiveData_cons, hb, if_true, hf, storePacket_eq, hle]
        exact hr
      · intro k
        rw [hk k, StdMap.mem_keys_assign, hseq]
        simp only [List.mem_cons, exists_eq_or_imp]
        tauto

theorem retrieveData_of_stages (c0 c1 c2 c3 : ExchangeClient) (buffer buffer2 : Buffer)
    (h1 : c0.drain buffer = .ok c1) (h2 : c1.identifyMissingSequences = .ok c2)
    (h3 : c2.requestMissingPackets buffer2 = .ok c3) :
    c0.retrieveData buffer buffer2 = .ok (c3.saveDataAsJSON (cstr "output.json")) := by
  simp only [ExchangeClient.retrieveData, h1, h2, h3]

/-- C4 (amended). When every gap sequence computed after draining is at most 255
and the server answers each resend request `[2, p]` with the whole frame whose
sequence is `p`, backfilling completes, the run reaches the output, and the record
set then has an entry for every sequence from 1 to the largest drained sequence. -/
theorem gapless_when_at_most_255 (incoming : List (List Byte)) (buffer buffer2 : Buffer)
    (c c1 : ExchangeClient)
    (hd : (ExchangeClient.init incoming).drain buffer = .ok c)
    (hi : c.identifyMissingSequences = .ok c1)
    (hgaps : ∀ g ∈ c1.missingSequences, g ≤ 255)
    (hserver : answersResends c1.missingSequences c1.socketManager.incoming = true) :
    ∃ c2, c1.requestMissingPackets buffer2 = .ok c2 ∧
      (ExchangeClient.init incoming).retrieveData buffer buffer2
        = .ok (c2.saveDataAsJSON (cstr "output.json")) ∧
      ∀ maxSeq, maxSeq ∈ c.packets.keys → (∀ k ∈ c.packets.keys, k ≤ maxSeq) →
        ∀ i, 1 ≤ i → i ≤ maxSeq → i ∈ c2.packets.keys := by
  obtain ⟨hc, hm, -, -⟩ := drain_init _ _ _ hd
  obtain ⟨hc1, -, M, -, -, hub, -, hmem⟩ := identify_spec c c1 hc hm hi
  obtain ⟨r, hr, hk⟩ :=
    requestLoop_answered c1.missingSequences c1.socketManager buffer2 c1.packets hserver
  have h3 : c1.requestMissingPackets buffer2
      = .ok { c1 with socketManager := r.1, packets := r.2 } := by
    simp only [ExchangeClient.requestMissingPackets, hr]
  refine ⟨_, h3, retrieveData_of_stages _ _ _ _ _ _ hd hi h3, ?_⟩
  intro maxSeq hmax _ i h1 h2
  have hp : c1.packets = c.packets := (identify_packets _ _ hi).1
  show i ∈ r.2.keys
  rw [hk i, hp]
  by_cases hin : i ∈ c.packets.keys
  · exact Or.inl hin
  · have hgap : i ∈ c1.missingSequences :=
      (hmem i).mpr ⟨h1, le_trans h2 (hub maxSeq hmax), hin⟩
    refine Or.inr ⟨i, hgap, ?_⟩
    have := hgaps i hgap
    exact ((toUint8_eq_iff i).mpr ⟨by omega, by omega⟩).symm

/-! ## Sequences above 255 -/

theorem drain_frame_then_silence (frame : List Byte) (rest : List (List Byte))
    (buffer : Buffer) (h17 : frame.length = 17)
    (hs : sequenceField (bufferOfList frame) ≤ 2147483647) :
    (ExchangeClient.init (frame :: [] :: rest)).drain buffer
      = .ok { socketManager := { incoming := rest, sent := [[1, 0]] }
              packets := [((sequenceField (bufferOfList frame) : Int),
                decodePacket (bufferOfList frame))]
              missingSequences := []
              files := [] } := by
  have hb : ¬ bytesReadOf frame ≤ 0 := by
    unfold bytesReadOf
    rw [h17]
    decide
  have hb0 : bytesReadOf [] ≤ 0 := by decide
  have hf : fillBuffer buffer frame = bufferOfList frame :=
    fillBuffer_full buffer frame (by omega)
  simp only [ExchangeClient.drain, ExchangeClient.init, SocketManager.sendRequest, drainLoop, hb,
    hb0, if_false, if_true, hf, storePacket_eq, hs, StdMap.assign, List.nil_append]

theorem mem_gapsAbove255 (x : Int) : x ∈ gapsAbove255 ↔ (1 ≤ x ∧ x ≤ 255) ∨ x = 257 := by
  unfold gapsAbove255
  simp only [List.mem_append, List.mem_map, List.mem_range'_1, List.mem_singleton]
  constructor
  · rintro (⟨n, hn, rfl⟩ | h)
    · simp only [Int.ofNat_eq_coe]
      omega
    · exact Or.inr h
  · rintro (⟨h1, h2⟩ | h)
    · refine Or.inl ⟨x.toNat, by omega, ?_⟩
      simp only [Int.ofNat_eq_coe]
      omega
    · exact Or.inr h

theorem sorted_gapsAbove255 : gapsAbove255.Pairwise (· < ·) := by
  unfold gapsAbove255
  rw [List.pairwise_append]
  refine ⟨?_, List.pairwise_singleton _ _, ?_⟩
  · rw [List.pairwise_map]
    exact (List.pairwise_lt_range' 1 255).imp (fun h => by simpa using h)
  · intro a ha b hb
    simp only [List.mem_map, List.mem_range'_1] at ha
    simp only [List.mem_singleton] at hb
    obtain ⟨n, hn, rfl⟩ := ha
    subst hb
    simp only [Int.ofNat_eq_coe]
    omega

theorem drain_two_frames_then_silence (f1 f2 : List Byte) (rest : List (List Byte))
    (buffer : Buffer) (h1 : f1.length = 17) (h2 : f2.length = 17)
    (hs1 : sequenceField (bufferOfList f1) ≤ 2147483647)
    (hs2 : sequenceField (bufferOfList f2) ≤ 2147483647) :
    (ExchangeClient.init (f1 :: f2 :: [] :: rest)).drain buffer
      = .ok { socketManager := { incoming := rest, sent := [[1, 0]] }
              packets := StdMap.assign
                [((sequenceField (bufferOfList f1) : Int), decodePacket (bufferOfList f1))]
                (sequenceField (bufferOfList f2) : Int) (decodePacket (bufferOfList f2))
              missingSequences := []
              files := [] } := by
  have hb1 : ¬ bytesReadOf f1 ≤ 0 := by
    unfold bytesReadOf
    rw [h1]
    decide
  have hb2 : ¬ bytesReadOf f2 ≤ 0 := by
    unfold bytesReadOf
    rw [h2]
    decide
  have hb0 : bytesReadOf [] ≤ 0 := by decide
  have hf1 : fillBuffer buffer f1 = bufferOfList f1 := fillBuffer_full buffer f1 (by omega)
  have hf2 : fillBuffer (bufferOfList f1) f2 = bufferOfList f2 :=
    fillBuffer_full _ f2 (by omega)
  have ha : StdMap.assign ([] : StdMap Int Packet) (sequenceField (bufferOfList f1) : Int)
      (decodePacket (bufferOfList f1))
      = [((sequenceField (bufferOfList f1) : Int), decodePacket (bufferOfList f1))] := rfl
  simp only [ExchangeClient.drain, ExchangeClient.init, SocketManager.sendRequest, drainLoop,
    hb1, hb2, hb0, if_false, if_true, hf1, hf2, storePacket_eq, hs1, hs2, ha, List.nil_append]

/-- C4 (counterexample). Draining receives the frames with sequences 256 and 258,
so `maxSeq = 258` and the gap set is 1..255 and 257; the server answers every resend
request `[2, p]` with the whole frame whose sequence is `p` (every `p` asked for is
between 1 and 255). Backfilling completes and the run reaches the output, but the
record set has no entry for sequence 257, which lies in `[1, maxSeq]`: the request
for 257 was the frame `[2, 1]`. -/
theorem gapless_fails_above_255 :
    (ExchangeClient.init above255Incoming).drain zeroBuffer = .ok above255Drained ∧
    above255Drained.packets.keys = [256, 258] ∧
    above255Drained.identifyMissingSequences = .ok above255Identified ∧
    answersResends above255Identified.missingSequences
      above255Identified.socketManager.incoming = true ∧
    (∀ g ∈ above255Identified.missingSequences,
      1 ≤ (toUint8 g).val ∧ (toUint8 g).val ≤ 255) ∧
    resendFrame 257 = [2, 1] ∧
    above255Identified.requestMissingPackets zeroBuffer = .ok above255Backfilled ∧
    (ExchangeClient.init above255Incoming).retrieveData zeroBuffer zeroBuffer
      = .ok (above255Backfilled.saveDataAsJSON (cstr "output.json")) ∧
    above255Backfilled.packets.find 257 = none := by
  have hseq1 : sequenceField (bufferOfList (frameWithSequence 256)) = 256 :=
    sequenceField_frameWithSequence 256 (by decide)
  have hseq2 : sequenceField (bufferOfList (frameWithSequence 258)) = 258 :=
    sequenceField_frameWithSequence 258 (by decide)
  have hdrain : (ExchangeClient.init above255Incoming).drain zeroBuffer
      = .ok above255Drained := by
    unfold above255Incoming
    rw [drain_two_frames_then_silence (frameWithSequence 256) (frameWithSequence 258) _
      zeroBuffer rfl rfl (by rw [hseq1]; decide) (by rw [hseq2]; decide)]
    unfold above255Drained
    rw [hseq1, hseq2]
    rfl
  have hcons : Consistent above255Drained.packets := (drain_init _ _ _ hdrain).1
  have hkeys : ∀ x : Int, x ∈ above255Drained.packets.keys ↔ x = 256 ∨ x = 258 := by
    intro x
    simp [above255Drained, StdMap.keys]
  have hM : maxSequenceLoop above255Drained.packets 0 = .ok 258 := by
    simp only [above255Drained, maxSequenceLoop, sequenceOf_decodePacket, hseq1, hseq2]
    rfl
  have hident : above255Drained.identifyMissingSequences = .ok above255Identified := by
    obtain ⟨gaps, hg, hmem, hs⟩ := identify_ok above255Drained 258 hM (by decide) (by decide)
    have hgaps : gaps = gapsAbove255 := by
      apply sorted_ext _ _ (hs List.Pairwise.nil) sorted_gapsAbove255
      intro x
      rw [hmem x, mem_gapsAbove255, hkeys x]
      have hnil : x ∉ above255Drained.missingSequences := by
        simp [above255Drained]
      constructor
      · rintro (h | h)
        · exact absurd h hnil
        · omega
      · intro h
        exact Or.inr (by omega)
    rw [hg, hgaps]
    rfl
  have hserver : answersResends above255Identified.missingSequences
      above255Identified.socketManager.incoming = true :=
    answersResends_honest gapsAbove255
  have hparams : ∀ g ∈ above255Identified.missingSequences,
      1 ≤ (toUint8 g).val ∧ (toUint8 g).val ≤ 255 := by
    intro g hg
    have hg2 : g ∈ gapsAbove255 := hg
    rw [mem_gapsAbove255] at hg2
    have hv := toUint8_val g
    omega
  obtain ⟨r, hr, hk⟩ := requestLoop_answered above255Identified.missingSequences
    above255Identified.socketManager zeroBuffer above255Identified.packets hserver
  have hreq : above255Identified.requestMissingPackets zeroBuffer
      = .ok { above255Identified with socketManager := r.1, packets := r.2 } := by
    simp only [ExchangeClient.requestMissingPackets, hr]
  have hback : above255Backfilled
      = { above255Identified with socketManager := r.1, packets := r.2 } := by
    unfold above255Backfilled
    rw [hreq]
    rfl
  refine ⟨hdrain, rfl, hident, hserver, hparams, by decide, ?_, ?_, ?_⟩
  · rw [hback]
    exact hreq
  · rw [hback]
    exact retrieveData_of_stages _ _ _ _ _ _ hdrain hident hreq
  · rw [hback, StdMap.find_eq_none_iff]
    show (257 : Int) ∉ r.2.keys
    rw [hk 257]
    rintro (h | ⟨g, -, h⟩)
    · have h2 : (257 : Int) = 256 ∨ (257 : Int) = 258 := (hkeys 257).mp h
      omega
    · have := (toUint8 g).isLt
      omega

set_option maxRecDepth 100000 in
theorem gapless_when_at_most_255_witness :
    (ExchangeClient.init sampleIncoming).drain zeroBuffer = .ok sampleDrained ∧
    sampleDrained.identifyMissingSequences = .ok sampleIdentified ∧
    (∀ g ∈ sampleIdentified.missingSequences, g ≤ 255) ∧
    answersResends sampleIdentified.missingSequences sampleIdentified.socketManager.incoming
      = true ∧
    sampleDrained.packets.keys = [1, 2, 4, 5] ∧
    ∃ c2, sampleIdentified.requestMissingPackets zeroBuffer = .ok c2 ∧
      (ExchangeClient.init sampleIncoming).retrieveData zeroBuffer zeroBuffer
        = .ok (c2.saveDataAsJSON (cstr "output.json")) ∧
      ∀ maxSeq, maxSeq ∈ sampleDrained.packets.keys →
        (∀ k ∈ sampleDrained.packets.keys, k ≤ maxSeq) →
        ∀ i, 1 ≤ i → i ≤ maxSeq → i ∈ c2.packets.keys :=
  ⟨by decide, by decide, by decide, by decide, by decide,
    gapless_when_at_most_255 sampleIncoming zeroBuffer zeroBuffer sampleDrained sampleIdentified
      (by decide) (by decide) (by decide) (by decide)⟩

/-! ## The single-gap scenario -/

theorem socketOf_request (c : ExchangeClient) (buffer : Buffer) :
    socketOf (c.requestMissingPackets buffer)
      = loopSocket (requestLoop c.missingSequences c.socketManager buffer c.packets) := by
  unfold ExchangeClient.requestMissingPackets
  split <;> rename_i h <;> simp only [h, socketOf, loopSocket]

theorem socketOf_retrieveData (c0 c1 c2 : ExchangeClient) (buffer buffer2 : Buffer)
    (h1 : c0.drain buffer = .ok c1) (h2 : c1.identifyMissingSequences = .ok c2) :
    socketOf (c0.retrieveData buffer buffer2) = socketOf (c2.requestMissingPackets buffer2) := by
  simp only [ExchangeClient.retrieveData, h1, h2]
  split <;> rename_i h <;> simp only [h, socketOf, ExchangeClient.saveDataAsJSON]

theorem requestLoop_single_sent (g : Int) (sm : SocketManager) (buffer : Buffer)
    (packets : StdMap Int Packet) :
    (loopSocket (requestLoop [g] sm buffer packets)).sent = sm.sent ++ [resendFrame g] := by
  have hs := sendReceive_sent sm buffer g
  simp only [requestLoop]
  split
  · split
    · exact hs
    · exact hs
  · exact hs

theorem requestLoop_single_reply (g : Int) (sent : List (List Byte)) (reply : List Byte)
    (rest : List (List Byte)) (buffer : Buffer) (packets : StdMap Int Packet)
    (hne : reply ≠ []) (hs : sequenceOf (decodePacket (fillBuffer buffer reply)) = .ok g) :
    requestLoop [g] { incoming := reply :: rest, sent := sent } buffer packets
      = .ok ({ incoming := rest, sent := sent ++ [resendFrame g] },
          packets.assign g (decodePacket (fillBuffer buffer reply))) := by
  obtain ⟨hle, rfl⟩ := sequenceOf_decodePacket_ok _ _ hs
  have hb : bytesReadOf reply > 0 := (bytesReadOf_pos reply).mpr hne
  simp only [requestLoop, receiveData_cons, hb, if_true, storePacket_eq, hle, resendFrame]

theorem requestLoop_single_timeout (g : Int) (sm : SocketManager) (buffer : Buffer)
    (packets : StdMap Int Packet) (h : sm.incoming.head?.getD [] = []) :
    ∃ sm', requestLoop [g] sm buffer packets = .ok (sm', packets) := by
  obtain ⟨incoming, sent⟩ := sm
  cases incoming with
  | nil =>
    refine ⟨{ incoming := [], sent := sent ++ [[2, toUint8 g]] }, ?_⟩
    simp only [requestLoop, receiveData_nil]
    rfl
  | cons reply rest =>
    simp only [List.head?_cons, Option.getD_some] at h
    subst h
    refine ⟨{ incoming := rest, sent := sent ++ [[2, toUint8 g]] }, ?_⟩
    simp only [requestLoop, receiveData_cons]
    rfl

theorem consistent_output_sequences (packets : StdMap Int Packet) (hc : Consistent packets) :
    (packets.map Prod.snd).map sequenceOf = packets.keys.map Except.ok := by
  unfold StdMap.keys
  rw [List.map_map, List.map_map]
  apply List.map_congr_left
  intro e he
  exact hc.2 e he

/-- C6. When the gap set computed after draining is a single sequence `g ≤ 255`:
backfilling sends exactly one resend request, `[2, g]`, whatever is received then;
if the receive call delivers a frame that decodes to sequence `g`, the run reaches
the output with the drained sequences plus `g`, in ascending order; if the receive
call times out, the run reaches the output with exactly the drained record set. -/
theorem single_gap_scenario (incoming : List (List Byte)) (buffer buffer2 : Buffer)
    (c c1 : ExchangeClient) (g : Int)
    (hd : (ExchangeClient.init incoming).drain buffer = .ok c)
    (hi : c.identifyMissingSequences = .ok c1)
    (hg : c1.missingSequences = [g]) (h255 : g ≤ 255) :
    (socketOf ((ExchangeClient.init incoming).retrieveData buffer buffer2)).sent
      = [[1, 0], [2, toUint8 g]] ∧
    ((toUint8 g).val : Int) = g ∧
    g ∉ c.packets.keys ∧
    (∀ reply rest, c.socketManager.incoming = reply :: rest → reply ≠ [] →
      sequenceOf (decodePacket (fillBuffer buffer2 reply)) = .ok g →
      ∃ c2, (ExchangeClient.init incoming).retrieveData buffer buffer2 = .ok c2 ∧
        c2.outputData.map sequenceOf = c2.packets.keys.map Except.ok ∧
        c2.packets.keys.Pairwise (· < ·) ∧
        ∀ k, k ∈ c2.packets.keys ↔ k = g ∨ k ∈ c.packets.keys) ∧
    (c.socketManager.incoming.head?.getD [] = [] →
      ∃ c2, (ExchangeClient.init incoming).retrieveData buffer buffer2 = .ok c2 ∧
        c2.packets = c.packets ∧
        c2.outputData.map sequenceOf = c.packets.keys.map Except.ok) := by
  obtain ⟨hc, hm, -, hsent⟩ := drain_init _ _ _ hd
  obtain ⟨-, -, M, -, -, -, -, hmem⟩ := identify_spec c c1 hc hm hi
  obtain ⟨hp, hsm, -⟩ := identify_packets _ _ hi
  have hgm : 1 ≤ g ∧ g ≤ M ∧ g ∉ c.packets.keys := (hmem g).mp (by rw [hg]; simp)
  refine ⟨?_, (toUint8_eq_iff g).mpr ⟨by omega, h255⟩, hgm.2.2, ?_, ?_⟩
  · rw [socketOf_retrieveData _ _ _ _ _ hd hi, socketOf_request, hg,
      requestLoop_single_sent, hsm, hsent]
    rfl
  · intro reply rest hinc hne hs
    have hsock : c1.socketManager = { incoming := reply :: rest, sent := [[1, 0]] } := by
      rw [hsm, ← hinc, ← hsent]
    have hr := requestLoop_single_reply g [[1, 0]] reply rest buffer2 c1.packets hne hs
    have h3 : c1.requestMissingPackets buffer2
        = .ok { c1 with socketManager := { incoming := rest, sent := [[1, 0]] ++ [resendFrame g] },
                        packets := c1.packets.assign g (decodePacket (fillBuffer buffer2 reply)) } := by
      simp only [ExchangeClient.requestMissingPackets, hg, hsock, hr]
    have hc2 : Consistent (c1.packets.assign g (decodePacket (fillBuffer buffer2 reply))) := by
      have hst : storePacket (fillBuffer buffer2 reply) c1.packets
          = .ok (c1.packets.assign g (decodePacket (fillBuffer buffer2 reply))) := by
        obtain ⟨hle, rfl⟩ := sequenceOf_decodePacket_ok _ _ hs
        rw [storePacket_eq, if_pos hle]
      exact storePacket_consistent _ _ _ (hp ▸ hc) hst
    refine ⟨_, retrieveData_of_stages _ _ _ _ _ _ hd hi h3, ?_, ?_, ?_⟩
    · exact consistent_output_sequences _ hc2
    · exact hc2.1
    · intro k
      show k ∈ StdMap.keys (c1.packets.assign g _) ↔ _
      rw [StdMap.mem_keys_assign, hp]
  · intro htime
    obtain ⟨sm', hr⟩ := requestLoop_single_timeout g c1.socketManager buffer2 c1.packets
      (by rw [hsm]; exact htime)
    have h3 : c1.requestMissingPackets buffer2
        = .ok { c1 with socketManager := sm', packets := c1.packets } := by
      simp only [ExchangeClient.requestMissingPackets, hg, hr]
    refine ⟨_, retrieveData_of_stages _ _ _ _ _ _ hd hi h3, hp, ?_⟩
    show (c1.packets.map Prod.snd).map sequenceOf = _
    rw [hp]
    exact consistent_output_sequences _ hc

set_option maxRecDepth 100000 in
theorem single_gap_scenario_witness :
    ((ExchangeClient.init sampleIncoming).drain zeroBuffer = .ok sampleDrained ∧
      sampleDrained.identifyMissingSequences = .ok sampleIdentified ∧
      sampleDrained.packets.keys = [1, 2, 4, 5] ∧
      sampleIdentified.missingSequences = [3] ∧ (3 : Int) ≤ 255 ∧
      (socketOf ((ExchangeClient.init sampleIncoming).retrieveData zeroBuffer zeroBuffer)).sent
        = [[1, 0], [2, toUint8 3]] ∧
      (finalOf ((ExchangeClient.init sampleIncoming).retrieveData zeroBuffer
        zeroBuffer)).outputData.map sequenceOf = [.ok 1, .ok 2, .ok 3, .ok 4, .ok 5]) ∧
    ((ExchangeClient.init sampleIncomingTimeout).drain zeroBuffer = .ok sampleDrainedTimeout ∧
      sampleDrainedTimeout.identifyMissingSequences = .ok sampleIdentifiedTimeout ∧
      sampleIdentifiedTimeout.missingSequences = [3] ∧
      sampleDrainedTimeout.packets.keys = [1, 2, 4, 5] ∧
      sampleDrainedTimeout.socketManager.incoming.head?.getD [] = [] ∧
      (socketOf ((ExchangeClient.init sampleIncomingTimeout).retrieveData zeroBuffer
        zeroBuffer)).sent = [[1, 0], [2, toUint8 3]] ∧
      ∃ c2, (ExchangeClient.init sampleIncomingTimeout).retrieveData zeroBuffer zeroBuffer
          = .ok c2 ∧
        c2.packets = sampleDrainedTimeout.packets ∧
        c2.outputData.map sequenceOf = sampleDrainedTimeout.packets.keys.map Except.ok) :=
  ⟨⟨by decide, by decide, by decide, by decide, by decide,
      (single_gap_scenario sampleIncoming zeroBuffer zeroBuffer sampleDrained sampleIdentified 3
        (by decide) (by decide) (by decide) (by decide)).1, by decide⟩,
    ⟨by decide, by decide, by decide, by decide, by decide,
      (single_gap_scenario sampleIncomingTimeout zeroBuffer zeroBuffer sampleDrainedTimeout
        sampleIdentifiedTimeout 3 (by decide) (by decide) (by decide) (by decide)).1,
      (single_gap_scenario sampleIncomingTimeout zeroBuffer zeroBuffer sampleDrainedTimeout
        sampleIdentifiedTimeout 3 (by decide) (by decide) (by decide) (by decide)).2.2.2.2
        (by decide)⟩⟩

/-! ## Full streams -/

namespace StdMap

variable {κ ν : Type} [LinearOrder κ]

theorem assign_append (m : StdMap κ ν) (k : κ) (v : ν) (h : ∀ x ∈ keys m, x < k) :
    assign m k v = m ++ [(k, v)] := by
  induction m with
  | nil => rfl
  | cons e rest ih =>
    obtain ⟨k', v'⟩ := e
    have hk : k' < k := h k' (by simp [keys])
    have h1 : ¬ k < k' := not_lt.mpr (le_of_lt hk)
    have h2 : k ≠ k' := ne_of_gt hk
    simp only [assign, h1, h2, if_false, List.cons_append]
    exact congrArg (List.cons (k', v'))
      (ih (fun x hx => h x (by simp only [keys, List.map_cons, List.mem_cons]; exact Or.inr hx)))

end StdMap

theorem keys_entries (m : Nat) (i : Int) :
    i ∈ StdMap.keys ((List.range' 1 m).map entryOf) ↔ 1 ≤ i ∧ i ≤ m := by
  simp only [StdMap.keys, List.map_map, List.mem_map, List.mem_range'_1, Function.comp, entryOf]
  constructor
  · rintro ⟨n, hn, rfl⟩
    omega
  · rintro ⟨h1, h2⟩
    exact ⟨i.toNat, by omega, by omega⟩

theorem drainLoop_ascending (sent : List (List Byte)) (n : Nat) :
    ∀ (m : Nat) (buffer : Buffer), m + n ≤ 2147483647 →
      drainLoop sent ((List.range' (m + 1) n).map frameWithSequence) buffer
          ((List.range' 1 m).map entryOf)
        = .ok ([], (List.range' 1 (m + n)).map entryOf) := by
  induction n with
  | zero =>
    intro m buffer _
    rfl
  | succ n ih =>
    intro m buffer h
    have hseq : sequenceField (bufferOfList (frameWithSequence (m + 1))) = m + 1 :=
      sequenceField_frameWithSequence (m + 1) (by omega)
    have hb : ¬ bytesReadOf (frameWithSequence (m + 1)) ≤ 0 := by
      unfold bytesReadOf
      rw [frameWithSequence_length]
      decide
    have hf : fillBuffer buffer (frameWithSequence (m + 1))
        = bufferOfList (frameWithSequence (m + 1)) :=
      fillBuffer_full buffer _ (by rw [frameWithSequence_length])
    have hle : sequenceField (bufferOfList (frameWithSequence (m + 1))) ≤ 2147483647 := by
      rw [hseq]; omega
    have happ : StdMap.assign ((List.range' 1 m).map entryOf)
        ((sequenceField (bufferOfList (frameWithSequence (m + 1))) : Nat) : Int)
        (decodePacket (bufferOfList (frameWithSequence (m + 1))))
        = (List.range' 1 (m + 1)).map entryOf := by
      rw [StdMap.assign_append]
      · rw [List.range'_concat, List.map_append, hseq]
        simp only [List.map_cons, List.map_nil, entryOf, Nat.one_mul, Nat.add_comm 1 m]
      · intro x hx
        rw [keys_entries] at hx
        rw [hseq]
        omega
    rw [List.range'_succ, List.map_cons]
    simp only [drainLoop, hb, if_false, hf, storePacket_eq, hle, if_true, happ]
    have := ih (m + 1) (bufferOfList (frameWithSequence (m + 1))) (by omega)
    rw [Nat.add_right_comm m 1 n, Nat.add_assoc m n 1] at this
    exact this

theorem request_nothing (c : ExchangeClient) (buffer : Buffer) (hm : c.missingSequences = []) :
    c.requestMissingPackets buffer = .ok c := by
  obtain ⟨sm, packets, missing, files⟩ := c
  simp only at hm
  subst hm
  rfl

theorem full_stream_drain (n : Nat) (h : n ≤ 2147483647) (buffer : Buffer) :
    (ExchangeClient.init (fullStreamIncoming n)).drain buffer = .ok (fullStreamDrained n) ∧
    (∀ i : Int, i ∈ (fullStreamDrained n).packets.keys ↔ 1 ≤ i ∧ i ≤ n) := by
  have hloop := drainLoop_ascending [[1, 0]] n 0 buffer (by omega)
  have e0 : List.map entryOf (List.range' 1 0) = [] := rfl
  simp only [Nat.zero_add, e0] at hloop
  constructor
  · simp only [ExchangeClient.drain, ExchangeClient.init, SocketManager.sendRequest,
      List.nil_append, fullStreamIncoming]
    rw [hloop]
    rfl
  · exact fun i => keys_entries n i

theorem full_stream_overflow (n : Nat) (h : (n : Int) = INT_MAX) (buffer : Buffer) :
    (ExchangeClient.init (fullStreamIncoming n)).drain buffer = .ok (fullStreamDrained n) ∧
    (∀ i : Int, i ∈ (fullStreamDrained n).packets.keys ↔ 1 ≤ i ∧ i ≤ n) ∧
    (fullStreamDrained n).identifyMissingSequences
      = .error { fault := .signed_overflow, socket := (fullStreamDrained n).socketManager } := by
  have hn : n ≤ 2147483647 := by
    unfold INT_MAX at h
    omega
  obtain ⟨hdrain, hkeys⟩ := full_stream_drain n hn buffer
  refine ⟨hdrain, hkeys, ?_⟩
  have hc : Consistent (fullStreamDrained n).packets := (drain_init _ _ _ hdrain).1
  obtain ⟨M, hM, -, hle, hub, -⟩ := maxSequence_consistent _ hc
  have hge : (n : Int) ≤ M := hub _ ((hkeys n).mpr ⟨by unfold INT_MAX at h; omega, le_refl _⟩)
  exact identify_overflow (fullStreamDrained n) M hM (le_antisymm hle (h ▸ hge))

/-- C10 (failing input). Draining receives the frames with sequences 1, 2, ..,
`2147483647` in order, so the key set of the record set is all of `[1, maxSeq]` with
`maxSeq = 2147483647`; `identifyMissingSequences` then does not produce an empty gap
set: the increment of its loop counter overflows when the counter is `INT_MAX`. -/
theorem full_stream_overflow_at_INT_MAX (buffer : Buffer) :
    (ExchangeClient.init (fullStreamIncoming 2147483647)).drain buffer
      = .ok (fullStreamDrained 2147483647) ∧
    (∀ i : Int, i ∈ (fullStreamDrained 2147483647).packets.keys ↔
      1 ≤ i ∧ i ≤ (2147483647 : Nat)) ∧
    (fullStreamDrained 2147483647).identifyMissingSequences
      = .error { fault := .signed_overflow,
                 socket := (fullStreamDrained 2147483647).socketManager } :=
  full_stream_overflow 2147483647 rfl buffer

/-- Idempotent backfill below the overflow: when the keys left by draining are all
of `[1, maxSeq]` with `1 ≤ maxSeq < INT_MAX`, the gap set is empty, backfilling sends
no request and receives nothing, and the run reaches the output with the drained
record set. -/
theorem full_stream_no_backfill_below_INT_MAX (incoming : List (List Byte))
    (buffer buffer2 : Buffer) (c : ExchangeClient) (maxSeq : Int)
    (hd : (ExchangeClient.init incoming).drain buffer = .ok c)
    (h1 : 1 ≤ maxSeq) (hlt : maxSeq < INT_MAX)
    (hkeys : ∀ i, i ∈ c.packets.keys ↔ 1 ≤ i ∧ i ≤ maxSeq) :
    c.identifyMissingSequences = .ok c ∧ c.missingSequences = [] ∧
    c.requestMissingPackets buffer2 = .ok c ∧
    c.socketManager.sent = [[1, 0]] ∧
    (ExchangeClient.init incoming).retrieveData buffer buffer2
      = .ok (c.saveDataAsJSON (cstr "output.json")) := by
  obtain ⟨hc, hm, -, hsent⟩ := drain_init _ _ _ hd
  obtain ⟨gaps, hg, -, hmemg⟩ := gap_completeness_below_INT_MAX incoming buffer c maxSeq hd
    ((hkeys maxSeq).mpr ⟨h1, le_refl _⟩) (fun k hk => ((hkeys k).mp hk).2) hlt
  have hnil : gaps = [] := by
    apply List.eq_nil_iff_forall_not_mem.mpr
    intro x hx
    obtain ⟨hx1, hx2, hx3⟩ := (hmemg x).mp hx
    exact hx3 ((hkeys x).mpr ⟨hx1, hx2⟩)
  have hid : c.identifyMissingSequences = .ok c := by
    rw [hg, hnil, ← hm]
  have hreq : c.requestMissingPackets buffer2 = .ok c :=
    request_nothing c buffer2 hm
  exact ⟨hid, hm, hreq, hsent, retrieveData_of_stages _ _ _ _ _ _ hd hid hreq⟩

/-! ## The empty stream -/

theorem drain_empty_stream (incoming : List (List Byte)) (buffer : Buffer)
    (h : incoming.head?.getD [] = []) :
    (ExchangeClient.init incoming).drain buffer
      = .ok { socketManager := { incoming := incoming.tail, sent := [[1, 0]] }
              packets := []
              missingSequences := []
              files := [] } := by
  cases incoming with
  | nil => rfl
  | cons chunk rest =>
    simp only [List.head?_cons, Option.getD_some] at h
    subst h
    rfl

/-- C11. When the first receive call of draining returns a non-positive value, the
record set stays empty, the largest sequence computed is 0, the gap set is empty,
only the stream-all request has been sent, and the run ends normally with
`output.json` holding the text `[`, line feed, `]`, which is what the serializer
returns for the empty list. -/
theorem empty_stream_boundary (incoming : List (List Byte)) (buffer buffer2 : Buffer)
    (h : incoming.head?.getD [] = []) :
    ∃ c0, (ExchangeClient.init incoming).drain buffer = .ok c0 ∧
      c0.packets = [] ∧
      maxSequenceLoop c0.packets 0 = .ok 0 ∧
      c0.identifyMissingSequences = .ok c0 ∧
      c0.missingSequences = [] ∧
      c0.requestMissingPackets buffer2 = .ok c0 ∧
      c0.socketManager.sent = [[1, 0]] ∧
      serialize [] = [91, 10, 93] ∧
      (ExchangeClient.init incoming).retrieveData buffer buffer2
        = .ok { c0 with files := [(cstr "output.json", cstr "[\n]")] } := by
  have hd := drain_empty_stream incoming buffer h
  refine ⟨_, hd, rfl, rfl, rfl, rfl, rfl, rfl, by decide, ?_⟩
  simp only [ExchangeClient.retrieveData, hd]
  rfl

theorem empty_stream_boundary_witness :
    ([] : List (List Byte)).head?.getD [] = [] ∧
    ∃ c0, (ExchangeClient.init []).drain zeroBuffer = .ok c0 ∧
      c0.packets = [] ∧
      maxSequenceLoop c0.packets 0 = .ok 0 ∧
      c0.identifyMissingSequences = .ok c0 ∧
      c0.missingSequences = [] ∧
      c0.requestMissingPackets zeroBuffer = .ok c0 ∧
      c0.socketManager.sent = [[1, 0]] ∧
      serialize [] = [91, 10, 93] ∧
      (ExchangeClient.init []).retrieveData zeroBuffer zeroBuffer
        = .ok { c0 with files := [(cstr "output.json", cstr "[\n]")] } :=
  ⟨rfl, empty_stream_boundary [] zeroBuffer zeroBuffer rfl⟩

/-! ## What backfilling keeps -/

namespace StdMap

variable {κ ν : Type} [LinearOrder κ]

theorem length_assign_le (m : StdMap κ ν) (k : κ) (v : ν) :
    (assign m k v).length ≤ m.length + 1 := by
  induction m with
  | nil => simp [assign]
  | cons e rest ih =>
    obtain ⟨k', v'⟩ := e
    simp only [assign]
    by_cases h1 : k < k'
    · simp [h1]
    · by_cases h2 : k = k'
      · simp [h2]
      · simp only [h1, h2, if_false, List.length_cons]
        omega

end StdMap

theorem fillBuffer_nil (buffer : Buffer) : fillBuffer buffer [] = buffer := by
  funext i
  simp [fillBuffer]

theorem decodedSequences_length_le (chunks : List (List Byte)) :
    ∀ buffer : Buffer, (decodedSequences chunks buffer).length ≤ chunks.length := by
  induction chunks with
  | nil => intro buffer; simp [decodedSequences]
  | cons chunk rest ih =>
    intro buffer
    simp only [decodedSequences]
    split
    · simp only [List.length_cons]
      exact Nat.succ_le_succ (ih _)
    · simp only [List.length_cons]
      exact Nat.le_succ_of_le (ih _)

/-- What the loop of `requestMissingPackets` leaves when it completes: the keys are
the old keys and the sequences of the replies decoded, the record set grows by at
most one entry per reply, and entries whose key no reply carried are unchanged. -/
theorem requestLoop_decoded (gaps : List Int) :
    ∀ (sm : SocketManager) (buffer : Buffer) (packets : StdMap Int Packet)
      (r : SocketManager × StdMap Int Packet),
      requestLoop gaps sm buffer packets = .ok r →
      (∀ k, k ∈ r.2.keys ↔
        k ∈ packets.keys ∨ k ∈ decodedSequences (sm.incoming.take gaps.length) buffer) ∧
      r.2.length ≤ packets.length
        + (decodedSequences (sm.incoming.take gaps.length) buffer).length ∧
      (∀ k, k ∉ decodedSequences (sm.incoming.take gaps.length) buffer →
        r.2.find k = packets.find k) := by
  induction gaps with
  | nil =>
    intro sm buffer packets r h
    simp only [requestLoop, Except.ok.injEq] at h
    subst h
    simp [decodedSequences]
  | cons g rest ih =>
    intro sm buffer packets r h
    obtain ⟨incoming, sent⟩ := sm
    cases incoming with
    | nil =>
      simp only [requestLoop, receiveData_nil] at h
      have h' : requestLoop rest { incoming := [], sent := sent ++ [[2, toUint8 g]] } buffer
          packets = .ok r := by
        simpa using h
      obtain ⟨h1, h2, h3⟩ := ih _ _ _ r h'
      simpa [decodedSequences] using And.intro h1 (And.intro h2 h3)
    | cons chunk replies =>
      simp only [requestLoop, receiveData_cons] at h
      by_cases hb : bytesReadOf chunk > 0
      · simp only [hb, if_true] at h
        split at h
        · exact absurd h (by simp)
        · rename_i packets' hst
          obtain ⟨-, rfl⟩ := storePacket_ok _ _ _ hst
          obtain ⟨h1, h2, h3⟩ := ih _ _ _ r h
          simp only [List.length_cons, List.take_succ_cons, decodedSequences, hb, if_true,
            List.mem_cons, List.length_cons]
          simp only [StdMap.mem_keys_assign] at h1
          simp only at h2
          refine ⟨?_, ?_, ?_⟩
          · intro k
            rw [h1 k]
            tauto
          · have := StdMap.length_assign_le packets
              (sequenceField (fillBuffer buffer chunk) : Int)
              (decodePacket (fillBuffer buffer chunk))
            omega
          · intro k hk
            rw [h3 k (fun hh => hk (Or.inr hh))]
            exact StdMap.find_assign_ne _ _ _ _ (fun hh => hk (Or.inl hh))
      · simp only [hb, if_false] at h
        obtain ⟨h1, h2, h3⟩ := ih _ _ _ r h
        simp only [List.length_cons, List.take_succ_cons, decodedSequences, hb, if_false]
        exact ⟨h1, h2, h3⟩

/-- C17. When backfilling completes, whatever the replies were: every key of the
record set before it is still a key, the number of entries has grown by at most
the number of replies decoded, and an entry whose key no reply carried is the same
as before. -/
theorem backfill_keeps_records (c c2 : ExchangeClient) (buffer : Buffer)
    (h : c.requestMissingPackets buffer = .ok c2) :
    (∀ k, k ∈ c.packets.keys → k ∈ c2.packets.keys) ∧
    (∀ k, k ∈ c2.packets.keys ↔ k ∈ c.packets.keys ∨ k ∈ c.replySequences buffer) ∧
    c2.packets.length ≤ c.packets.length + (c.replySequences buffer).length ∧
    (c.replySequences buffer).length ≤ c.missingSequences.length ∧
    (∀ k, k ∉ c.replySequences buffer → c2.packets.find k = c.packets.find k) := by
  obtain ⟨hr, -, -⟩ := request_fields _ _ _ h
  obtain ⟨h1, h2, h3⟩ := requestLoop_decoded _ _ _ _ _ hr
  refine ⟨fun k hk => (h1 k).mpr (Or.inl hk), h1, h2, ?_, h3⟩
  exact le_trans (decodedSequences_length_le _ _) (List.length_take_le _ _)

/-! ## Unrecovered gaps -/

set_option maxRecDepth 100000 in
theorem backfill_keeps_records_witness :
    sampleIdentified.requestMissingPackets zeroBuffer = .ok sampleBackfilled ∧
    sampleIdentified.packets.keys = [1, 2, 4, 5] ∧
    sampleIdentified.replySequences zeroBuffer = [3] ∧
    sampleBackfilled.packets.keys = [1, 2, 3, 4, 5] ∧
    (∀ k, k ∈ sampleIdentified.packets.keys → k ∈ sampleBackfilled.packets.keys) ∧
    (∀ k, k ∈ sampleBackfilled.packets.keys ↔
      k ∈ sampleIdentified.packets.keys ∨ k ∈ sampleIdentified.replySequences zeroBuffer) ∧
    sampleBackfilled.packets.length
      ≤ sampleIdentified.packets.length + (sampleIdentified.replySequences zeroBuffer).length ∧
    (sampleIdentified.replySequences zeroBuffer).length
      ≤ sampleIdentified.missingSequences.length ∧
    (∀ k, k ∉ sampleIdentified.replySequences zeroBuffer →
      sampleBackfilled.packets.find k = sampleIdentified.packets.find k) :=
  ⟨by decide, by decide, by decide, by decide,
    backfill_keeps_records sampleIdentified sampleBackfilled zeroBuffer (by decide)⟩

theorem mem_decodedSequences (chunks : List (List Byte)) :
    ∀ (buffer : Buffer) (k : Int),
      k ∈ decodedSequences chunks buffer ↔
        ∃ j : Nat, (decodedReplies chunks buffer)[j]? = some (some k) := by
  induction chunks with
  | nil =>
    intro buffer k
    simp [decodedSequences, decodedReplies]
  | cons chunk rest ih =>
    intro buffer k
    simp only [decodedSequences, decodedReplies]
    by_cases hb : bytesReadOf chunk > 0
    · simp only [hb, if_true, List.mem_cons, ih]
      constructor
      · rintro (h | ⟨j, hj⟩)
        · exact ⟨0, by simp [h]⟩
        · exact ⟨j + 1, by simpa using hj⟩
      · rintro ⟨j, hj⟩
        cases j with
        | zero =>
          simp only [List.getElem?_cons_zero, Option.some.injEq] at hj
          exact Or.inl hj.symm
        | succ j =>
          exact Or.inr ⟨j, by simpa using hj⟩
    · simp only [hb, if_false, ih]
      constructor
      · rintro ⟨j, hj⟩
        exact ⟨j + 1, by simpa using hj⟩
      · rintro ⟨j, hj⟩
        cases j with
        | zero => simp at hj
        | succ j => exact ⟨j, by simpa using hj⟩

theorem decodedReplies_timeout (chunks : List (List Byte)) :
    ∀ (buffer : Buffer) (i : Nat) (k : Int),
      bytesReadOf ((chunks[i]?).getD []) ≤ 0 →
        (decodedReplies chunks buffer)[i]? ≠ some (some k) := by
  induction chunks with
  | nil =>
    intro buffer i k _
    simp [decodedReplies]
  | cons chunk rest ih =>
    intro buffer i k h
    cases i with
    | zero =>
      simp only [List.getElem?_cons_zero, Option.getD_some] at h
      simp only [decodedReplies, List.getElem?_cons_zero, not_lt.mpr h, if_false]
      simp
    | succ i =>
      simp only [List.getElem?_cons_succ] at h
      simp only [decodedReplies, List.getElem?_cons_succ]
      exact ih _ i k h

/-- C13 (amended). When backfilling completes: if the receive call for the resend
request of gap `g` returns a non-positive value (time-out or no data), and the reply
to no other resend request decodes to sequence `g`, then the final record set has no
entry for `g`. -/
theorem unrecovered_gap_stays_absent (incoming : List (List Byte)) (buffer buffer2 : Buffer)
    (c c1 c2 : ExchangeClient) (g : Int) (i : Nat)
    (hd : (ExchangeClient.init incoming).drain buffer = .ok c)
    (hi : c.identifyMissingSequences = .ok c1)
    (hg : c1.missingSequences[i]? = some g)
    (htimeout : bytesReadOf ((c1.socketManager.incoming[i]?).getD []) ≤ 0)
    (hothers : ∀ j, j ≠ i →
      (decodedReplies (c1.socketManager.incoming.take c1.missingSequences.length) buffer2)[j]?
        ≠ some (some g))
    (h : c1.requestMissingPackets buffer2 = .ok c2) :
    c2.packets.find g = none ∧
    (ExchangeClient.init incoming).retrieveData buffer buffer2
      = .ok (c2.saveDataAsJSON (cstr "output.json")) := by
  obtain ⟨hc, hm, -, -⟩ := drain_init _ _ _ hd
  obtain ⟨-, -, M, -, -, -, -, hmem⟩ := identify_spec c c1 hc hm hi
  obtain ⟨hp, -, -⟩ := identify_packets _ _ hi
  have hgm : g ∈ c1.missingSequences := List.getElem?_mem hg
  have hnk : g ∉ c1.packets.keys := by
    rw [hp]
    exact ((hmem g).mp hgm).2.2
  have hilt : i < c1.missingSequences.length := by
    by_contra hcon
    rw [List.getElem?_eq_none (not_lt.mp hcon)] at hg
    exact absurd hg (by simp)
  have hnr : g ∉ c1.replySequences buffer2 := by
    unfold ExchangeClient.replySequences
    rw [mem_decodedSequences]
    rintro ⟨j, hj⟩
    by_cases hji : j = i
    · subst hji
      refine decodedReplies_timeout _ buffer2 j g ?_ hj
      rw [List.getElem?_take_of_lt hilt]
      exact htimeout
    · exact hothers j hji hj
  obtain ⟨-, hkeys, -, -, -⟩ := backfill_keeps_records c1 c2 buffer2 h
  refine ⟨?_, retrieveData_of_stages _ _ _ _ _ _ hd hi h⟩
  rw [StdMap.find_eq_none_iff, hkeys g]
  rintro (hh | hh)
  · exact hnk hh
  · exact hnr hh

set_option maxRecDepth 100000 in
theorem unrecovered_gap_stays_absent_witness :
    (ExchangeClient.init oneTimeoutIncoming).drain zeroBuffer = .ok oneTimeoutDrained ∧
    oneTimeoutDrained.identifyMissingSequences = .ok oneTimeoutIdentified ∧
    oneTimeoutIdentified.missingSequences = [1, 2] ∧
    oneTimeoutIdentified.missingSequences[0]? = some 1 ∧
    bytesReadOf ((oneTimeoutIdentified.socketManager.incoming[0]?).getD []) ≤ 0 ∧
    decodedReplies (oneTimeoutIdentified.socketManager.incoming.take
      oneTimeoutIdentified.missingSequences.length) zeroBuffer = [none, some 2] ∧
    oneTimeoutIdentified.requestMissingPackets zeroBuffer = .ok oneTimeoutBackfilled ∧
    oneTimeoutBackfilled.packets.keys = [2, 3] ∧
    oneTimeoutBackfilled.packets.find 1 = none ∧
    (ExchangeClient.init oneTimeoutIncoming).retrieveData zeroBuffer zeroBuffer
      = .ok (oneTimeoutBackfilled.saveDataAsJSON (cstr "output.json")) :=
  have e : decodedReplies (oneTimeoutIdentified.socketManager.incoming.take
      oneTimeoutIdentified.missingSequences.length) zeroBuffer = [none, some 2] := by decide
  ⟨by decide, by decide, by decide, by decide, by decide, e, by decide, by decide,
    unrecovered_gap_stays_absent oneTimeoutIncoming zeroBuffer zeroBuffer oneTimeoutDrained
      oneTimeoutIdentified oneTimeoutBackfilled 1 0 (by decide) (by decide) (by decide)
      (by decide)
      (by
        intro j hj
        rw [e]
        cases j with
        | zero => exact absurd rfl hj
        | succ j =>
          cases j with
          | zero => decide
          | succ j => simp)
      (by decide)⟩

set_option maxRecDepth 100000 in
/-- C13 (counterexample). Draining receives frame 3, so the gap set is 1 and 2. The
receive call for the resend request of gap 1 returns nothing, and the reply to the
request for gap 2 is a frame with sequence 1. Backfilling completes, the run
reaches the output, and the final record set has an entry for sequence 1. -/
theorem timed_out_gap_filled_by_later_reply :
    (ExchangeClient.init lateReplyIncoming).drain zeroBuffer = .ok lateReplyDrained ∧
    lateReplyDrained.identifyMissingSequences = .ok lateReplyIdentified ∧
    lateReplyIdentified.missingSequences = [1, 2] ∧
    lateReplyIdentified.socketManager.incoming = [[], frameWithSequence 1] ∧
    bytesReadOf ((lateReplyIdentified.socketManager.incoming[0]?).getD []) ≤ 0 ∧
    lateReplyIdentified.requestMissingPackets zeroBuffer = .ok lateReplyBackfilled ∧
    (ExchangeClient.init lateReplyIncoming).retrieveData zeroBuffer zeroBuffer
      = .ok (lateReplyBackfilled.saveDataAsJSON (cstr "output.json")) ∧
    lateReplyBackfilled.packets.keys = [1, 3] ∧
    lateReplyBackfilled.packets.find 1
      = some (decodePacket (bufferOfList (frameWithSequence 1))) := by
  refine ⟨by decide, by decide, by decide, by decide, by decide, by decide, by decide,
    by decide, by decide⟩

/-! ## Reachable record sets -/

theorem reachable_consistent (packets : StdMap Int Packet) (h : Reachable packets) :
    Consistent packets := by
  induction h with
  | empty => exact consistent_nil
  | store buffer packets packets' _ hst ih => exact storePacket_consistent _ _ _ ih hst

/-- Every record of a reachable record set is the decode of some buffer, stored
under the sequence number read from that buffer. -/
theorem reachable_entries (packets : StdMap Int Packet) (h : Reachable packets) :
    ∀ e ∈ packets, ∃ b : Buffer, e = ((sequenceField b : Int), decodePacket b) ∧
      sequenceField b ≤ 2147483647 := by
  induction h with
  | empty =>
    intro e he
    simp at he
  | store buffer packets packets' _ hst ih =>
    obtain ⟨hle, rfl⟩ := storePacket_ok _ _ _ hst
    intro e he
    rcases StdMap.mem_assign _ _ _ _ he with he | he
    · exact ⟨buffer, he, hle⟩
    · exact ih e he

theorem drainLoop_reachable (sent : List (List Byte)) (incoming : List (List Byte)) :
    ∀ (buffer : Buffer) (packets : StdMap Int Packet) (r : List (List Byte) × StdMap Int Packet),
      Reachable packets → drainLoop sent incoming buffer packets = .ok r → Reachable r.2 := by
  induction incoming with
  | nil =>
    intro buffer packets r hc h
    simp only [drainLoop, Except.ok.injEq] at h
    subst h
    exact hc
  | cons chunk rest ih =>
    intro buffer packets r hc h
    simp only [drainLoop] at h
    split at h
    · simp only [Except.ok.injEq] at h
      subst h
      exact hc
    · split at h
      · exact absurd h (by simp)
      · rename_i packets' hst
        exact ih _ _ r (Reachable.store _ _ _ hc hst) h

theorem requestLoop_reachable (gaps : List Int) :
    ∀ (sm : SocketManager) (buffer : Buffer) (packets : StdMap Int Packet)
      (r : SocketManager × StdMap Int Packet),
      Reachable packets → requestLoop gaps sm buffer packets = .ok r → Reachable r.2 := by
  induction gaps with
  | nil =>
    intro sm buffer packets r hc h
    simp only [requestLoop, Except.ok.injEq] at h
    subst h
    exact hc
  | cons g rest ih =>
    intro sm buffer packets r hc h
    simp only [requestLoop] at h
    split at h
    · split at h
      · exact absurd h (by simp)
      · rename_i packets' hst
        exact ih _ _ _ r (Reachable.store _ _ _ hc hst) h
    · exact ih _ _ _ r hc h

/-- C16. In every record set reachable from the empty one by storing frames (the
step of both receive loops, which keep a reachable set reachable): the keys are
strictly ascending, every record is stored under the number its own
`packetSequence` field reads as, and the largest sequence that the first loop of
`identifyMissingSequences` computes from the records is the largest key, or 0 for
the empty set. -/
theorem key_record_consistency (packets : StdMap Int Packet) (h : Reachable packets) :
    packets.keys.Pairwise (· < ·) ∧
    (∀ e ∈ packets, sequenceOf e.2 = .ok e.1 ∧ 0 ≤ e.1) ∧
    (∃ M, maxSequenceLoop packets 0 = .ok M ∧ (∀ k ∈ packets.keys, k ≤ M) ∧
      (packets = [] → M = 0) ∧ (packets ≠ [] → M ∈ packets.keys)) ∧
    (∀ (sent : List (List Byte)) (incoming : List (List Byte)) (buffer : Buffer)
        (r : List (List Byte) × StdMap Int Packet),
      drainLoop sent incoming buffer packets = .ok r → Reachable r.2) ∧
    (∀ (gaps : List Int) (sm : SocketManager) (buffer : Buffer)
        (r : SocketManager × StdMap Int Packet),
      requestLoop gaps sm buffer packets = .ok r → Reachable r.2) := by
  have hc := reachable_consistent packets h
  have hent := reachable_entries packets h
  have hnn : ∀ k ∈ packets.keys, (0 : Int) ≤ k := by
    intro k hk
    simp only [StdMap.keys, List.mem_map] at hk
    obtain ⟨e, he, rfl⟩ := hk
    obtain ⟨b, rfl, -⟩ := hent e he
    exact Int.ofNat_nonneg _
  obtain ⟨M, hM, h0, -, hub, hin⟩ := maxSequence_consistent packets hc
  refine ⟨hc.1, ?_, ⟨M, hM, hub, ?_, ?_⟩, ?_, ?_⟩
  · intro e he
    refine ⟨hc.2 e he, hnn e.1 ?_⟩
    simp only [StdMap.keys, List.mem_map]
    exact ⟨e, he, rfl⟩
  · intro hnil
    rcases hin with hin | hin
    · exact hin
    · rw [hnil] at hin
      simp [StdMap.keys] at hin
  · intro hne
    rcases hin with hin | hin
    · obtain ⟨e, t, rfl⟩ := List.exists_cons_of_ne_nil hne
      have hk : e.1 ∈ StdMap.keys (e :: t) := by simp [StdMap.keys]
      have h1 := hub e.1 hk
      have h2 := hnn e.1 hk
      have : e.1 = M := by omega
      exact this ▸ hk
    · exact hin
  · intro sent incoming buffer r hr
    exact drainLoop_reachable _ _ _ _ _ h hr
  · intro gaps sm buffer r hr
    exact requestLoop_reachable _ _ _ _ _ h hr

set_option maxRecDepth 100000 in
theorem key_record_consistency_witness :
    Reachable samplePackets ∧
    samplePackets.keys.Pairwise (· < ·) ∧
    (∀ e ∈ samplePackets, sequenceOf e.2 = .ok e.1 ∧ 0 ≤ e.1) ∧
    (∃ M, maxSequenceLoop samplePackets 0 = .ok M ∧ (∀ k ∈ samplePackets.keys, k ≤ M) ∧
      (samplePackets = [] → M = 0) ∧ (samplePackets ≠ [] → M ∈ samplePackets.keys)) ∧
    maxSequenceLoop samplePackets 0 = .ok 3 :=
  have hr : Reachable samplePackets :=
    Reachable.store (bufferOfList (frameWithSequence 3))
      [(1, decodePacket (bufferOfList (frameWithSequence 1)))] samplePackets
      (Reachable.store (bufferOfList (frameWithSequence 1)) [] _ Reachable.empty (by decide))
      (by decide)
  ⟨hr, (key_record_consistency samplePackets hr).1, (key_record_consistency samplePackets hr).2.1,
    (key_record_consistency samplePackets hr).2.2.1, by decide⟩

/-! ## Sequences that abort the run -/

theorem retrieveData_large_frame (frame : List Byte) (buffer buffer2 : Buffer)
    (h17 : frame.length = 17) (hs : ¬ sequenceField (bufferOfList frame) ≤ 2147483647) :
    (ExchangeClient.init [frame]).retrieveData buffer buffer2
      = .error { fault := .out_of_range, socket := { incoming := [], sent := [[1, 0]] } } := by
  have hb : ¬ bytesReadOf frame ≤ 0 := by
    unfold bytesReadOf
    rw [h17]
    decide
  have hf : fillBuffer buffer frame = bufferOfList frame :=
    fillBuffer_full buffer frame (by omega)
  simp only [ExchangeClient.retrieveData, ExchangeClient.drain, ExchangeClient.init,
    SocketManager.sendRequest, drainLoop, hb, if_false, hf, storePacket_eq, hs, List.nil_append]

/-- C12 (failing input). Draining receives one 17-byte frame whose sequence field
is `2147483648`, a value of the wire format. `std::stoi` throws `out_of_range` on
its decimal text, nothing catches the exception, and the run ends there: the gap
computation, backfilling and the output are never reached. -/
theorem run_aborts_on_large_sequence (buffer buffer2 : Buffer) :
    (frameWithSequence 2147483648).length = 17 ∧
    sequenceField (bufferOfList (frameWithSequence 2147483648)) = 2147483648 ∧
    (2147483648 : Nat) < 2 ^ 32 ∧
    (ExchangeClient.init [frameWithSequence 2147483648]).retrieveData buffer buffer2
      = .error { fault := .out_of_range, socket := { incoming := [], sent := [[1, 0]] } } := by
  have hseq : sequenceField (bufferOfList (frameWithSequence 2147483648)) = 2147483648 :=
    sequenceField_frameWithSequence 2147483648 (by decide)
  refine ⟨frameWithSequence_length _, hseq, by decide, ?_⟩
  apply retrieveData_large_frame _ _ _ (frameWithSequence_length _)
  rw [hseq]
  decide

theorem storePacket_small (chunk : List Byte) (buffer : Buffer) (packets : StdMap Int Packet)
    (h17 : 17 ≤ chunk.length) (hs : sequenceField (bufferOfList chunk) < 2147483647) :
    storePacket (fillBuffer buffer chunk) packets
      = .ok (packets.assign (sequenceField (bufferOfList chunk) : Int)
          (decodePacket (bufferOfList chunk))) := by
  rw [fillBuffer_full buffer chunk h17, storePacket_eq, if_pos (by omega)]

theorem drainLoop_completes (sent : List (List Byte)) (incoming : List (List Byte)) :
    ∀ (buffer : Buffer) (packets : StdMap Int Packet),
      (∀ chunk ∈ incoming, SmallFrame chunk) → (∀ k ∈ packets.keys, k < INT_MAX) →
      ∃ r, drainLoop sent incoming buffer packets = .ok r ∧
        (∀ k ∈ r.2.keys, k < INT_MAX) ∧ (∀ chunk ∈ r.1, SmallFrame chunk) := by
  induction incoming with
  | nil =>
    intro buffer packets _ hk
    exact ⟨([], packets), rfl, hk, by simp⟩
  | cons chunk rest ih =>
    intro buffer packets hall hk
    have hrest : ∀ c ∈ rest, SmallFrame c := fun c hc => hall c (List.mem_cons_of_mem _ hc)
    by_cases hb : bytesReadOf chunk ≤ 0
    · exact ⟨(rest, packets), by simp only [drainLoop, hb, if_true], hk, hrest⟩
    · have hne : chunk ≠ [] := (bytesReadOf_pos chunk).mp (not_le.mp hb)
      rcases hall chunk (by simp) with hnil | ⟨h17, hs⟩
      · exact absurd hnil hne
      · obtain ⟨r, hr, h1, h2⟩ := ih (fillBuffer buffer chunk)
          (packets.assign (sequenceField (bufferOfList chunk) : Int)
            (decodePacket (bufferOfList chunk))) hrest (by
            intro k hk'
            rcases (StdMap.mem_keys_assign _ _ _ _).mp hk' with hk' | hk'
            · rw [hk']
              unfold INT_MAX
              omega
            · exact hk k hk')
        refine ⟨r, ?_, h1, h2⟩
        simp only [drainLoop, hb, if_false, storePacket_small chunk buffer packets h17 hs]
        exact hr

theorem requestLoop_completes (gaps : List Int) :
    ∀ (sm : SocketManager) (buffer : Buffer) (packets : StdMap Int Packet),
      (∀ chunk ∈ sm.incoming, SmallFrame chunk) →
      ∃ r, requestLoop gaps sm buffer packets = .ok r := by
  induction gaps with
  | nil =>
    intro sm buffer packets _
    exact ⟨(sm, packets), rfl⟩
  | cons g rest ih =>
    intro sm buffer packets hall
    obtain ⟨incoming, sent⟩ := sm
    cases incoming with
    | nil =>
      obtain ⟨r, hr⟩ := ih { incoming := [], sent := sent ++ [[2, toUint8 g]] } buffer packets
        (by simp)
      refine ⟨r, ?_⟩
      simp only [requestLoop, receiveData_nil]
      simpa using hr
    | cons chunk replies =>
      have hrest : ∀ c ∈ replies, SmallFrame c :=
        fun c hc => hall c (List.mem_cons_of_mem _ hc)
      by_cases hb : bytesReadOf chunk > 0
      · have hne : chunk ≠ [] := (bytesReadOf_pos chunk).mp hb
        rcases hall chunk (by simp) with hnil | ⟨h17, hs⟩
        · exact absurd hnil hne
        · obtain ⟨r, hr⟩ := ih { incoming := replies, sent := sent ++ [[2, toUint8 g]] }
            (fillBuffer buffer chunk)
            (packets.assign (sequenceField (bufferOfList chunk) : Int)
              (decodePacket (bufferOfList chunk))) hrest
          refine ⟨r, ?_⟩
          simp only [requestLoop, receiveData_cons, hb, if_true,
            storePacket_small chunk buffer packets h17 hs]
          exact hr
      · obtain ⟨r, hr⟩ := ih { incoming := replies, sent := sent ++ [[2, toUint8 g]] }
          (fillBuffer buffer chunk) packets hrest
        refine ⟨r, ?_⟩
        simp only [requestLoop, receiveData_cons, hb, if_false]
        exact hr

/-- Below `INT_MAX` no frame aborts the run: when every receive call returns nothing
or a whole frame whose sequence is below `2147483647`, `retrieveData` ends normally
and writes `output.json`. -/
theorem retrieveData_completes_below_INT_MAX (incoming : List (List Byte))
    (buffer buffer2 : Buffer) (h : ∀ chunk ∈ incoming, SmallFrame chunk) :
    ∃ c, (ExchangeClient.init incoming).retrieveData buffer buffer2 = .ok c ∧
      c.files = [(cstr "output.json", serialize c.outputData)] := by
  obtain ⟨r, hr, hk, hrest⟩ := drainLoop_completes [[1, 0]] incoming buffer [] h
    (by simp [StdMap.keys])
  have hd : (ExchangeClient.init incoming).drain buffer
      = .ok { socketManager := { incoming := r.1, sent := [[1, 0]] }
              packets := r.2
              missingSequences := []
              files := [] } := by
    simp only [ExchangeClient.drain, ExchangeClient.init, SocketManager.sendRequest,
      List.nil_append, hr]
  obtain ⟨hc, -, -, -⟩ := drain_init _ _ _ hd
  obtain ⟨M, hM, h0, -, -, hin⟩ := maxSequence_consistent _ hc
  have hlt : M < INT_MAX := by
    rcases hin with hin | hin
    · rw [hin]; decide
    · exact hk M hin
  obtain ⟨gaps, hg, -, -⟩ := identify_ok _ M hM h0 hlt
  obtain ⟨r2, hr2⟩ := requestLoop_completes gaps { incoming := r.1, sent := [[1, 0]] } buffer2
    r.2 hrest
  have hq : ExchangeClient.requestMissingPackets
      { socketManager := { incoming := r.1, sent := [[1, 0]] }, packets := r.2,
        missingSequences := gaps, files := [] } buffer2
      = .ok { socketManager := r2.1, packets := r2.2, missingSequences := gaps, files := [] } := by
    simp only [ExchangeClient.requestMissingPackets, hr2]
  exact ⟨_, retrieveData_of_stages _ _ _ _ _ _ hd hg hq, rfl⟩

/-! ## The output document -/

set_option maxRecDepth 100000 in
/-- C15 (failing input). The record decoded from a frame whose symbol bytes are
`A`, double quote, `B`, `C`: the serializer writes the symbol between double quotes
as it is, so the string literal of `symbol` ends after `A` and the text is not
well-formed JSON (the scan of its string literals fails). The same happens for a
symbol of four zero bytes (a control character inside a string literal). The run
that receives this frame writes exactly that text to `output.json`. -/
theorem serialized_quote_breaks_json :
    (decodePacket (bufferOfList quoteFrame)).find (cstr "symbol") = some [65, 34, 66, 67] ∧
    serialize [decodePacket (bufferOfList quoteFrame)]
      = cstr ("[\n  \x7b\n    \"buysellindicator\": \"B\",\n    \"packetSequence\": \"1\",\n"
          ++ "    \"price\": \"100\",\n    \"quantity\": \"50\",\n    \"symbol\": \"A\"BC\"\n"
          ++ "  \x7d\n]") ∧
    stringsDelimited (serialize [decodePacket (bufferOfList quoteFrame)]) = false ∧
    stringsDelimited (serialize [decodePacket (bufferOfList nulFrame)]) = false ∧
    stringsDelimited (serialize [decodePacket (bufferOfList (frameWithSequence 1))]) = true ∧
    (ExchangeClient.init [quoteFrame]).retrieveData zeroBuffer zeroBuffer = .ok quoteFinal ∧
    quoteFinal.files
      = [(cstr "output.json", serialize [decodePacket (bufferOfList quoteFrame)])] := by
  refine ⟨by decide, by decide, by decide, by decide, by decide, by decide, by decide⟩

end AbxClient
